import Mathlib

/-!
Verification of the transaction codec and signing core of the
`py-stellar-base` fork (files `stellar_sdk/transaction.py`,
`stellar_sdk/transaction_envelope.py`, `stellar_sdk/operation/operation.py`,
`stellar_sdk/server.py`, `stellar_sdk/exceptions.py`).

The Python code is shallowly embedded: pure functions become Lean
functions, fallible code returns `Except PyErr`, and the in-place
mutation done by `signature_base` is made explicit by returning the
post-call state.  Modules of the repository that are referenced by the
five files above but are not part of them (the generated XDR classes,
`keypair.py`, `muxed_account.py`, `memo.py`, `time_bounds.py`,
`base_transaction_envelope.py`, `strkey.py`, the stdlib `decimal`
module semantics) are modelled from the specification; each such
definition carries a doc comment that starts with `Modelled from the
spec:`.
-/

namespace StellarSDK

/-- The error conditions that can surface from the embedded code.
`valueError` stands for the `ValueError` subclass in
`stellar_sdk/exceptions.py`, `signatureExist` for `SignatureExistError`,
`invalidOperation` for `decimal.InvalidOperation`, `nameError` and
`attributeError` for the Python `NameError` / `AttributeError` raised
when an undefined name or missing attribute is evaluated. -/
inductive PyErr where
  | valueError
  | typeError
  | signatureExist
  | missingSecret
  | invalidOperation
  | nameError
  | attributeError
  deriving DecidableEq, Repr

/-! ## Decimal digit machinery

Executable base-10 digit functions (least-significant digit first),
written with explicit fuel so that every definition reduces in the
kernel. -/

/-- Base-10 digits of `n`, least significant first, with explicit fuel. -/
def natDigitsAux : Nat → Nat → List Nat
  | 0, _ => []
  | fuel + 1, n => if n = 0 then [] else n % 10 :: natDigitsAux fuel (n / 10)

/-- Base-10 digits of `n`, least significant first (`0` has no digits). -/
def natDigitsLSB (n : Nat) : List Nat := natDigitsAux n n

/-- Value of a least-significant-first digit list. -/
def ofDig : List Nat → Nat
  | [] => 0
  | d :: l => d + 10 * ofDig l

/-- Number of significant decimal digits of `n` (`0` has none). -/
def numDigits (n : Nat) : Nat := (natDigitsLSB n).length

theorem natDigitsAux_zero (fuel : Nat) : natDigitsAux fuel 0 = [] := by
  cases fuel <;> simp [natDigitsAux]

theorem natDigitsAux_stable (f1 : Nat) : ∀ f2 n, n ≤ f1 → n ≤ f2 →
    natDigitsAux f1 n = natDigitsAux f2 n := by
  induction f1 with
  | zero =>
    intro f2 n h1 _
    have hn : n = 0 := Nat.le_zero.mp h1
    subst hn
    rw [natDigitsAux_zero, natDigitsAux_zero]
  | succ f ih =>
    intro f2 n h1 h2
    by_cases hn : n = 0
    · subst hn
      rw [natDigitsAux_zero, natDigitsAux_zero]
    · have hpos : 0 < n := Nat.pos_of_ne_zero hn
      obtain ⟨f2p, rfl⟩ : ∃ m, f2 = m + 1 := by
        cases f2 with
        | zero => omega
        | succ m => exact ⟨m, rfl⟩
      have hdiv : n / 10 < n := Nat.div_lt_self hpos (by omega)
      simp only [natDigitsAux, hn, if_false]
      rw [ih f2p (n / 10) (by omega) (by omega)]

theorem natDigitsLSB_def {n : Nat} (hn : n ≠ 0) :
    natDigitsLSB n = n % 10 :: natDigitsLSB (n / 10) := by
  have hpos : 0 < n := Nat.pos_of_ne_zero hn
  obtain ⟨m, rfl⟩ : ∃ m, n = m + 1 := ⟨n - 1, by omega⟩
  show natDigitsAux (m + 1) (m + 1) = _
  simp only [natDigitsAux, hn, if_false]
  congr 1
  exact natDigitsAux_stable m _ _ (by omega) (le_refl _)

theorem ofDig_natDigitsLSB (n : Nat) : ofDig (natDigitsLSB n) = n := by
  induction n using Nat.strong_induction_on with
  | _ n ih =>
    by_cases hn : n = 0
    · subst hn; rfl
    · rw [natDigitsLSB_def hn]
      have hdiv : n / 10 < n := Nat.div_lt_self (Nat.pos_of_ne_zero hn) (by omega)
      simp only [ofDig, ih (n / 10) hdiv]
      omega

theorem natDigitsLSB_lt_ten (n : Nat) : ∀ d ∈ natDigitsLSB n, d < 10 := by
  induction n using Nat.strong_induction_on with
  | _ n ih =>
    by_cases hn : n = 0
    · subst hn; intro d hd; simp [natDigitsLSB, natDigitsAux] at hd
    · rw [natDigitsLSB_def hn]
      intro d hd
      rcases List.mem_cons.mp hd with h | h
      · subst h; exact Nat.mod_lt _ (by omega)
      · exact ih (n / 10) (Nat.div_lt_self (Nat.pos_of_ne_zero hn) (by omega)) d h

theorem numDigits_zero : numDigits 0 = 0 := rfl

theorem numDigits_def {n : Nat} (hn : n ≠ 0) :
    numDigits n = numDigits (n / 10) + 1 := by
  unfold numDigits
  rw [natDigitsLSB_def hn]
  simp

theorem lt_pow_of_numDigits_le {n k : Nat} (h : numDigits n ≤ k) : n < 10 ^ k := by
  induction n using Nat.strong_induction_on generalizing k with
  | _ n ih =>
    by_cases hn : n = 0
    · subst hn; positivity
    · rw [numDigits_def hn] at h
      obtain ⟨k0, rfl⟩ : ∃ m, k = m + 1 := by
        cases k with
        | zero => omega
        | succ m => exact ⟨m, rfl⟩
      have hdiv : n / 10 < n := Nat.div_lt_self (Nat.pos_of_ne_zero hn) (by omega)
      have h10 : n / 10 < 10 ^ k0 := ih (n / 10) hdiv (by omega)
      have : n < 10 * 10 ^ k0 := by omega
      calc n < 10 * 10 ^ k0 := this
        _ = 10 ^ (k0 + 1) := by ring

theorem numDigits_le_of_lt_pow {n k : Nat} (h : n < 10 ^ k) : numDigits n ≤ k := by
  induction n using Nat.strong_induction_on generalizing k with
  | _ n ih =>
    by_cases hn : n = 0
    · subst hn; simp [numDigits_zero]
    · rw [numDigits_def hn]
      have hk : k ≠ 0 := by
        intro hk0
        subst hk0
        simp at h
        omega
      obtain ⟨k0, rfl⟩ : ∃ m, k = m + 1 := by
        cases k with
        | zero => omega
        | succ m => exact ⟨m, rfl⟩
      have hdiv : n / 10 < n := Nat.div_lt_self (Nat.pos_of_ne_zero hn) (by omega)
      have hlt : n / 10 < 10 ^ k0 := by
        have hpow : 10 ^ (k0 + 1) = 10 * 10 ^ k0 := by ring
        rw [hpow] at h
        omega
      have := ih (n / 10) hdiv hlt
      omega

theorem lt_pow_numDigits (n : Nat) : n < 10 ^ numDigits n :=
  lt_pow_of_numDigits_le (le_refl _)

theorem numDigits_mono {m n : Nat} (h : m ≤ n) : numDigits m ≤ numDigits n :=
  numDigits_le_of_lt_pow (lt_of_le_of_lt h (lt_pow_numDigits n))

theorem numDigits_mul_pow10 {c : Nat} (hc : c ≠ 0) (k : Nat) :
    numDigits (c * 10 ^ k) = numDigits c + k := by
  induction k with
  | zero => simp
  | succ k ih =>
    have hck : c * 10 ^ k ≠ 0 := by positivity
    have h1 : c * 10 ^ (k + 1) = c * 10 ^ k * 10 := by ring
    have h2 : c * 10 ^ k * 10 ≠ 0 := by positivity
    rw [h1, numDigits_def h2]
    have hmod : c * 10 ^ k * 10 / 10 = c * 10 ^ k := Nat.mul_div_cancel _ (by omega)
    rw [hmod, ih]
    omega

/-! ## Characters and digit strings -/

/-- The character for a single decimal digit. -/
def digitChar10 : Nat → Char
  | 0 => '0'
  | 1 => '1'
  | 2 => '2'
  | 3 => '3'
  | 4 => '4'
  | 5 => '5'
  | 6 => '6'
  | 7 => '7'
  | 8 => '8'
  | 9 => '9'
  | _ => 'X'

/-- Whether a character is an ASCII decimal digit. -/
def isDigitC (c : Char) : Bool := decide (48 ≤ c.toNat) && decide (c.toNat ≤ 57)

/-- The most-significant-first character rendering of `n` (empty for `0`). -/
def renderDigits (n : Nat) : List Char := ((natDigitsLSB n).reverse).map digitChar10

/-- Numeric value of a list of ASCII digit characters, most significant
first (the usual left fold, as positional notation reads). -/
def chars2Nat (cs : List Char) : Nat := cs.foldl (fun a c => 10 * a + (c.toNat - 48)) 0

theorem digitChar10_toNat {d : Nat} (hd : d < 10) : (digitChar10 d).toNat = 48 + d := by
  interval_cases d <;> decide

theorem isDigitC_digitChar10 {d : Nat} (hd : d < 10) : isDigitC (digitChar10 d) = true := by
  interval_cases d <;> decide

theorem renderDigits_all_digits (n : Nat) : ∀ c ∈ renderDigits n, isDigitC c = true := by
  intro c hc
  unfold renderDigits at hc
  obtain ⟨d, hd, rfl⟩ := List.mem_map.mp hc
  exact isDigitC_digitChar10 (natDigitsLSB_lt_ten n d (List.mem_reverse.mp hd))

theorem foldl_digits_eq (l : List Nat) (hl : ∀ d ∈ l, d < 10) : ∀ a : Nat,
    (l.reverse.map digitChar10).foldl (fun a c => 10 * a + (c.toNat - 48)) a =
      a * 10 ^ l.length + ofDig l := by
  induction l with
  | nil => intro a; simp [ofDig]
  | cons d l ih =>
    intro a
    have hd : d < 10 := hl d (List.mem_cons_self d l)
    have hl2 : ∀ x ∈ l, x < 10 := fun x hx => hl x (List.mem_cons_of_mem d hx)
    have hrev : (d :: l).reverse = l.reverse ++ [d] := by simp
    rw [hrev, List.map_append, List.foldl_append, ih hl2 a]
    simp only [List.map_cons, List.map_nil, List.foldl_cons, List.foldl_nil]
    rw [digitChar10_toNat hd]
    simp only [ofDig, List.length_cons]
    have : 48 + d - 48 = d := by omega
    rw [this]
    ring

theorem chars2Nat_renderDigits (n : Nat) : chars2Nat (renderDigits n) = n := by
  unfold chars2Nat renderDigits
  rw [foldl_digits_eq (natDigitsLSB n) (natDigitsLSB_lt_ten n) 0, ofDig_natDigitsLSB]
  simp

theorem chars2Nat_append_renderDigits (xs : List Char) (n : Nat) :
    chars2Nat (xs ++ renderDigits n) =
      chars2Nat xs * 10 ^ (natDigitsLSB n).length + n := by
  unfold chars2Nat renderDigits
  rw [List.foldl_append]
  rw [foldl_digits_eq (natDigitsLSB n) (natDigitsLSB_lt_ten n) _, ofDig_natDigitsLSB]

theorem chars2Nat_zeros_append (m : Nat) (cs : List Char) :
    chars2Nat (List.replicate m '0' ++ cs) = chars2Nat cs := by
  unfold chars2Nat
  rw [List.foldl_append]
  have h : (List.replicate m '0').foldl (fun a c => 10 * a + (c.toNat - 48)) 0 = 0 := by
    induction m with
    | zero => rfl
    | succ m ih => simpa [List.replicate_succ] using ih
  rw [h]

theorem takeWhile_digits_append (ds : List Char) (r : List Char)
    (h : ∀ c ∈ ds, isDigitC c = true) :
    (ds ++ r).takeWhile isDigitC = ds ++ r.takeWhile isDigitC ∧
      (ds ++ r).dropWhile isDigitC = r.dropWhile isDigitC := by
  induction ds with
  | nil => simp
  | cons c ds ih =>
    have hc : isDigitC c = true := h c (List.mem_cons_self c ds)
    have hds : ∀ x ∈ ds, isDigitC x = true := fun x hx => h x (List.mem_cons_of_mem c hx)
    obtain ⟨ih1, ih2⟩ := ih hds
    constructor
    · simp [List.takeWhile_cons, hc, ih1]
    · simp [List.dropWhile_cons, hc, ih2]

theorem takeWhile_digits_nil {c : Char} (hc : isDigitC c = false) (r : List Char) :
    (c :: r).takeWhile isDigitC = [] ∧ (c :: r).dropWhile isDigitC = c :: r := by
  constructor
  · simp [List.takeWhile_cons, hc]
  · simp [List.dropWhile_cons, hc]

/-! ## Python `Decimal` values

Modelled from the spec: the amount codec (spec section 4.2) performs
"exact (non-floating) decimal arithmetic" through the Python stdlib
`decimal` module, which is not part of the repository.  A finite
`Decimal` is a sign, an integer coefficient and an integer exponent;
an arithmetic operation runs in a context whose default precision is
28 significant digits, rounding half-even.  The model below follows
the General Decimal Arithmetic semantics that module implements. -/

/-- A finite Python `Decimal`: sign, coefficient and exponent; the value
is `(-1)^neg * coeff * 10^exp`. -/
structure PyDec where
  neg : Bool
  coeff : Nat
  exp : Int
  deriving DecidableEq, Repr

/-- Modelled from the spec: `10^e` as a rational, for an integer `e`. -/
def q10 (e : Int) : ℚ := if 0 ≤ e then ((10 : ℚ) ^ e.toNat) else ((10 : ℚ) ^ (-e).toNat)⁻¹

/-- The rational value of a finite `Decimal`. -/
def PyDec.val (d : PyDec) : ℚ := (if d.neg then -1 else 1) * (d.coeff : ℚ) * q10 d.exp

/-- Reads an optional leading sign character. -/
def readSign (cs : List Char) : Bool × List Char :=
  match cs with
  | c :: r => if c = '-' then (true, r) else if c = '+' then (false, r) else (false, cs)
  | [] => (false, [])

/-- Reads a signed decimal integer that must span the whole input
(the exponent part of a `Decimal` literal). -/
def parseSignedInt (cs : List Char) : Option Int :=
  let sc := readSign cs
  let ds := sc.2.takeWhile isDigitC
  if ds.isEmpty then none
  else if (sc.2.dropWhile isDigitC).isEmpty then
    some ((if sc.1 then -1 else 1) * (chars2Nat ds : Int))
  else none

/-- Reads the optional exponent part `E±n` / `e±n` at the end of a
`Decimal` literal (`some 0` when absent). -/
def parseExpPart (cs : List Char) : Option Int :=
  match cs with
  | [] => some 0
  | c :: r => if c = 'E' ∨ c = 'e' then parseSignedInt r else none

/-- Modelled from the spec: the Python `Decimal` string constructor on a
finite numeric literal `[+-] digits [. digits] [E[+-]digits]` (at least
one digit before the optional exponent; `Infinity`, `NaN`, embedded
whitespace and underscores are outside the modelled domain). -/
def parsePyDecChars (cs : List Char) : Option PyDec :=
  let sc := readSign cs
  let intD := sc.2.takeWhile isDigitC
  let r1 := sc.2.dropWhile isDigitC
  let fr : List Char × List Char :=
    match r1 with
    | [] => ([], [])
    | c :: t => if c = '.' then (t.takeWhile isDigitC, t.dropWhile isDigitC) else ([], c :: t)
  if intD.isEmpty && fr.1.isEmpty then none
  else
    match parseExpPart fr.2 with
    | none => none
    | some ev => some ⟨sc.1, chars2Nat (intD ++ fr.1), ev - fr.1.length⟩

/-- `Decimal(s)` on a string. -/
def parsePyDec (s : String) : Option PyDec := parsePyDecChars s.data

/-- The rational value a decimal string denotes, when it parses. -/
def decValue? (s : String) : Option ℚ := (parsePyDec s).map PyDec.val

/-- Modelled from the spec: rounding a coefficient to the context
precision of 28 significant digits, half-even, as Python `Decimal`
multiplication does in the default context (the `Inexact` signal is not
trapped there, so a rounded result is returned silently). -/
def round28 (c7 : Nat) (e : Int) : Nat × Int :=
  let drop := numDigits c7 - 28
  let p := 10 ^ drop
  let q := c7 / p
  let r := c7 % p
  let half := p / 2
  let q1 := if half < r then q + 1 else if r < half then q else if q % 2 = 1 then q + 1 else q
  if q1 = 10 ^ 28 then (10 ^ 27, e + drop + 1) else (q1, e + drop)

/-- Modelled from the spec: `Decimal(value) * Decimal(10**7)` in the
default context (precision 28, half-even): the coefficients multiply
and the product is rounded when it exceeds 28 significant digits. -/
def pymul7 (c : Nat) (e : Int) : Nat × Int :=
  let c7 := c * 10 ^ 7
  if numDigits c7 ≤ 28 then (c7, e) else round28 c7 e

/-- Modelled from the spec: `Decimal.to_integral_exact` in a context that
traps `Inexact` — `some` of the integer magnitude when the value is an
integer, `none` (the trapped `Inexact` signal) otherwise. -/
def toIntegralExact (c : Nat) (e : Int) : Option Nat :=
  if 0 ≤ e then some (c * 10 ^ e.toNat)
  else if 10 ^ (-e).toNat ∣ c then some (c / 10 ^ (-e).toNat) else none

/-- `Operation.to_xdr_amount` (operation/operation.py lines 55-105) on a
string argument: `int((Decimal(value) * Operation._ONE).to_integral_exact
(context=Context(traps=[Inexact])))`, raising the sdk `ValueError` on the
trapped `Inexact` signal, then again when the integer is negative or
exceeds 9223372036854775807.  A string `Decimal` cannot parse raises
`decimal.InvalidOperation`; a non-string, non-`Decimal` argument raises
the sdk `TypeError` and is outside this embedding's domain. -/
def Operation.to_xdr_amount (value : String) : Except PyErr Int :=
  match parsePyDec value with
  | none => .error .invalidOperation
  | some d =>
    let ce := pymul7 d.coeff d.exp
    match toIntegralExact ce.1 ce.2 with
    | none => .error .valueError
    | some m =>
      let amount : Int := if d.neg then -(m : Int) else (m : Int)
      if amount < 0 ∨ 9223372036854775807 < amount then .error .valueError
      else .ok amount

/-- Strips up to `k` trailing zeros from `n`, returning the stripped
number and the count of zeros removed. -/
def stripZeros : Nat → Nat → Nat × Nat
  | 0, n => (n, 0)
  | k + 1, n =>
    if n % 10 = 0 then
      let mt := stripZeros k (n / 10)
      (mt.1, mt.2 + 1)
    else (n, 0)

/-- Modelled from the spec: the `to-scientific-string` conversion Python
`str` applies to a `Decimal` with coefficient `c > 0` and exponent `e`:
plain notation when `e ≤ 0` and the adjusted exponent is at least `-6`,
exponential notation (as in `1E-7`) otherwise. -/
def sciChars (c : Nat) (e : Int) : List Char :=
  let ds := renderDigits c
  let L : Int := ds.length
  let adjusted : Int := e + L - 1
  if e ≤ 0 ∧ -6 ≤ adjusted then
    if e = 0 then ds
    else if 0 ≤ adjusted then
      ds.take (L + e).toNat ++ '.' :: ds.drop (L + e).toNat
    else '0' :: '.' :: (List.replicate (-adjusted - 1).toNat '0' ++ ds)
  else
    match ds with
    | [] => ['0']
    | d0 :: tail =>
      (d0 :: if tail.isEmpty then [] else '.' :: tail) ++
        'E' :: (if adjusted < 0 then '-' else '+') :: renderDigits adjusted.natAbs

/-- `Operation.from_xdr_amount` (operation/operation.py lines 107-115):
`str(Decimal(value) / Operation._ONE)`.  The division by `Decimal(10**7)`
is exact whenever the quotient fits in the 28-digit context precision
(always the case for the 19-digit int64 range); the exact quotient takes
the ideal exponent `0 - 0 = 0` when it can, so trailing zeros are
stripped but at most 7 of them.  A quotient needing more than 28 digits
is rounded half-even to 28 digits. -/
def Operation.from_xdr_amount (value : Int) : String :=
  if value = 0 then "0"
  else
    let n := value.natAbs
    let ct := stripZeros 7 n
    let ce : Nat × Int :=
      if numDigits ct.1 ≤ 28 then (ct.1, (ct.2 : Int) - 7)
      else round28 ct.1 ((ct.2 : Int) - 7)
    String.mk ((if value < 0 then ['-'] else []) ++ sciChars ce.1 ce.2)

/-! ## Round-trip lemmas for the rendered decimal strings -/

theorem takeWhile_all_digits (ds : List Char) (h : ∀ c ∈ ds, isDigitC c = true) :
    ds.takeWhile isDigitC = ds ∧ ds.dropWhile isDigitC = [] := by
  have := takeWhile_digits_append ds [] h
  simpa using this

theorem renderDigits_ne_nil {c : Nat} (hc : 0 < c) : renderDigits c ≠ [] := by
  unfold renderDigits
  intro h
  have h2 : natDigitsLSB c = [] := by
    have := congrArg List.length h
    simp at this
    exact this
  have h3 := ofDig_natDigitsLSB c
  rw [h2] at h3
  simp [ofDig] at h3
  omega

theorem renderDigits_length (c : Nat) : (renderDigits c).length = numDigits c := by
  unfold renderDigits numDigits
  simp

theorem readSign_cons_of_digit {c0 : Char} (h : isDigitC c0 = true) (r : List Char) :
    readSign (c0 :: r) = (false, c0 :: r) := by
  have h1 : c0 ≠ '-' := by intro he; subst he; simp [isDigitC] at h
  have h2 : c0 ≠ '+' := by intro he; subst he; simp [isDigitC] at h
  simp [readSign, h1, h2]

/-- Parsing a pure digit string. -/
theorem parse_digits_only {d0 : Char} {tail : List Char} (hd0 : isDigitC d0 = true)
    (htail : ∀ x ∈ tail, isDigitC x = true) :
    parsePyDecChars (d0 :: tail) = some ⟨false, chars2Nat (d0 :: tail), 0⟩ := by
  unfold parsePyDecChars
  rw [readSign_cons_of_digit hd0]
  dsimp only
  have htw := takeWhile_all_digits (d0 :: tail) (by
    intro x hx
    rcases List.mem_cons.mp hx with h | h
    · subst h; exact hd0
    · exact htail x h)
  rw [htw.1, htw.2]
  simp [parseExpPart]

/-- Parsing a digit string with one interior decimal point. -/
theorem parse_point {d0 : Char} {pre post : List Char} (hd0 : isDigitC d0 = true)
    (hpre : ∀ x ∈ pre, isDigitC x = true) (hpost : ∀ x ∈ post, isDigitC x = true) :
    parsePyDecChars (d0 :: pre ++ '.' :: post) =
      some ⟨false, chars2Nat (d0 :: pre ++ post), -(post.length : Int)⟩ := by
  unfold parsePyDecChars
  rw [List.cons_append, readSign_cons_of_digit hd0]
  dsimp only
  have hall : ∀ x ∈ d0 :: pre, isDigitC x = true := by
    intro x hx
    rcases List.mem_cons.mp hx with h | h
    · subst h; exact hd0
    · exact hpre x h
  have happ := takeWhile_digits_append (d0 :: pre) ('.' :: post) hall
  have hdot : isDigitC '.' = false := by decide
  have hstop := takeWhile_digits_nil hdot post
  rw [List.cons_append] at happ
  rw [happ.1, happ.2, hstop.1, hstop.2]
  simp only [List.append_nil]
  have htw2 := takeWhile_all_digits post hpost
  rw [htw2.1, htw2.2]
  simp [parseExpPart]

/-- Parsing a mantissa followed by a negative exponent part. -/
theorem parse_exponent {d0 : Char} {frac : List Char} {a : Nat} (hd0 : isDigitC d0 = true)
    (hfrac : ∀ x ∈ frac, isDigitC x = true) (ha : 0 < a) (mid : List Char)
    (hmid : mid = [] ∨ mid = '.' :: frac) (hfe : mid = [] → frac = []) :
    parsePyDecChars (d0 :: mid ++ 'E' :: '-' :: renderDigits a) =
      some ⟨false, chars2Nat (d0 :: frac), -(a : Int) - (frac.length : Int)⟩ := by
  have hEd : isDigitC 'E' = false := by decide
  have heds : ∀ x ∈ renderDigits a, isDigitC x = true := renderDigits_all_digits a
  have hene : (renderDigits a).isEmpty = false := by
    cases h : renderDigits a with
    | nil => exact absurd h (renderDigits_ne_nil ha)
    | cons x l => rfl
  have hrs : readSign ('-' :: renderDigits a) = (true, renderDigits a) := by
    simp [readSign]
  have htwe := takeWhile_all_digits _ heds
  have hexp : parseExpPart ('E' :: '-' :: renderDigits a) = some (-(a : Int)) := by
    unfold parseExpPart
    simp only [show (('E' = 'E' ∨ 'E' = 'e')) = True by simp, if_true]
    unfold parseSignedInt
    rw [hrs]
    dsimp only
    rw [htwe.1, htwe.2]
    simp [hene, chars2Nat_renderDigits]
  rcases hmid with h | h
  · subst h
    have hf : frac = [] := hfe rfl
    subst hf
    unfold parsePyDecChars
    rw [show d0 :: ([] : List Char) ++ 'E' :: '-' :: renderDigits a =
      d0 :: 'E' :: '-' :: renderDigits a from rfl]
    rw [readSign_cons_of_digit hd0]
    dsimp only
    simp only [List.takeWhile_cons, hd0, if_true, hEd, Bool.false_eq_true,
      List.dropWhile_cons, if_false, List.takeWhile_nil]
    simp only [show (('E' = '.')) = False by simp, if_false]
    rw [hexp]
    simp
  · subst h
    unfold parsePyDecChars
    rw [List.cons_append, List.cons_append, readSign_cons_of_digit hd0]
    dsimp only
    have hdot : isDigitC '.' = false := by decide
    simp only [List.takeWhile_cons, hd0, if_true, hdot, Bool.false_eq_true,
      List.dropWhile_cons, if_false, List.takeWhile_nil]
    have happ := takeWhile_digits_append frac ('E' :: '-' :: renderDigits a) hfrac
    have hstop := takeWhile_digits_nil hEd ('-' :: renderDigits a)
    rw [happ.1, happ.2, hstop.1, hstop.2]
    simp only [List.append_nil]
    rw [hexp]
    simp

/-- Parsing back the scientific-string rendering recovers the exact
coefficient and exponent, for the exponent range the amount codec
produces. -/
theorem parse_sciChars {c : Nat} (hc : 0 < c) {e : Int} (he2 : e ≤ 0) :
    parsePyDecChars (sciChars c e) = some ⟨false, c, e⟩ := by
  have hds := renderDigits_all_digits c
  have hne : renderDigits c ≠ [] := renderDigits_ne_nil hc
  obtain ⟨d0, tail, hdt⟩ : ∃ d0 tail, renderDigits c = d0 :: tail := by
    cases h : renderDigits c with
    | nil => exact absurd h hne
    | cons a l => exact ⟨a, l, rfl⟩
  have hd0 : isDigitC d0 = true := by
    apply hds
    rw [hdt]
    exact List.mem_cons_self _ _
  have htail : ∀ x ∈ tail, isDigitC x = true := by
    intro x hx
    apply hds
    rw [hdt]
    exact List.mem_cons_of_mem _ hx
  have hlen : (renderDigits c).length = tail.length + 1 := by rw [hdt]; simp
  simp only [sciChars, hlen]
  split_ifs with h1 h2 h3
  · -- integer form
    subst h2
    rw [hdt, parse_digits_only hd0 htail, ← hdt, chars2Nat_renderDigits]
  · -- interior decimal point
    have hk0 : (0 : Int) ≤ (tail.length + 1 : Nat) + e := by
      push_cast
      omega
    have hkl : ((tail.length + 1 : Nat) + e).toNat ≤ tail.length := by
      have he1 : e ≤ -1 := by omega
      omega
    obtain ⟨k, hk⟩ : ∃ k, ((tail.length + 1 : Nat) + e).toNat = k + 1 := by
      refine ⟨((tail.length + 1 : Nat) + e).toNat - 1, ?_⟩
      have : (1 : Int) ≤ (tail.length + 1 : Nat) + e := by
        push_cast at h3 ⊢
        omega
      omega
    rw [hdt, hk]
    simp only [List.take_succ_cons, List.drop_succ_cons]
    have htk : ∀ x ∈ List.take k tail, isDigitC x = true := fun x hx =>
      htail x (List.take_subset k tail hx)
    have hdk : ∀ x ∈ List.drop k tail, isDigitC x = true := fun x hx =>
      htail x (List.drop_subset k tail hx)
    rw [parse_point hd0 htk hdk]
    have hcoeff : chars2Nat (d0 :: List.take k tail ++ List.drop k tail) = c := by
      rw [List.cons_append, List.take_append_drop, ← hdt, chars2Nat_renderDigits]
    rw [hcoeff]
    simp only [Option.some.injEq, PyDec.mk.injEq, true_and]
    have hdl : (List.drop k tail).length = tail.length - k := by simp
    have hke : ((k + 1 : Nat) : Int) = ((tail.length + 1 : Nat) : Int) + e := by
      rw [← hk, Int.toNat_of_nonneg hk0]
    rw [hdl]
    push_cast at hke ⊢
    omega
  · -- leading zeros after the point
    have hz : (0 : Int) ≤ -(e + ((tail.length + 1 : Nat) : Int) - 1) - 1 := by
      push_cast at h3 ⊢
      omega
    have h0d : isDigitC '0' = true := by decide
    have hall : ∀ x ∈ List.replicate (-(e + ((tail.length + 1 : Nat) : Int) - 1) - 1).toNat '0' ++
        renderDigits c, isDigitC x = true := by
      intro x hx
      rcases List.mem_append.mp hx with h | h
      · rw [List.eq_of_mem_replicate h]
        decide
      · exact hds x h
    have hpp := parse_point h0d (show ∀ x ∈ ([] : List Char), isDigitC x = true by intro x hx; simp at hx) hall
    rw [List.cons_append, List.nil_append] at hpp
    rw [hpp]
    have hcoeff : chars2Nat (['0'] ++ (List.replicate
        (-(e + ((tail.length + 1 : Nat) : Int) - 1) - 1).toNat '0' ++ renderDigits c)) = c := by
      have hrw : ['0'] ++ (List.replicate (-(e + ((tail.length + 1 : Nat) : Int) - 1) - 1).toNat '0' ++
          renderDigits c) = List.replicate ((-(e + ((tail.length + 1 : Nat) : Int) - 1) - 1).toNat + 1)
          '0' ++ renderDigits c := by
        rw [List.replicate_succ]
        simp
      rw [hrw, chars2Nat_zeros_append, chars2Nat_renderDigits]
    rw [hcoeff]
    simp only [Option.some.injEq, PyDec.mk.injEq, true_and]
    have hlr : (List.replicate (-(e + ((tail.length + 1 : Nat) : Int) - 1) - 1).toNat '0' ++
        renderDigits c).length = (-(e + ((tail.length + 1 : Nat) : Int) - 1) - 1).toNat +
        (tail.length + 1) := by
      simp [hlen]
    rw [hlr]
    have hzt := Int.toNat_of_nonneg hz
    push_cast
    push_cast at hzt
    omega
  · -- exponential notation, negative adjusted exponent
    rename_i h4
    obtain ⟨a, ha, hapos⟩ : ∃ a : Nat, e + ((tail.length + 1 : Nat) : Int) - 1 = -(a : Int) ∧ 0 < a :=
      ⟨(e + ((tail.length + 1 : Nat) : Int) - 1).natAbs, by omega, by omega⟩
    rw [hdt]
    dsimp only
    rw [ha, Int.natAbs_neg, Int.natAbs_ofNat]
    by_cases htnil : tail = []
    · subst htnil
      simp only [List.isEmpty_nil, if_true]
      have hpe := parse_exponent hd0 (show ∀ x ∈ ([] : List Char), isDigitC x = true by intro x hx; simp at hx) hapos []
        (Or.inl rfl) (fun _ => rfl)
      simp only [List.nil_append] at hpe ⊢
      rw [hpe]
      simp only [Option.some.injEq, PyDec.mk.injEq, true_and, List.length_nil]
      refine ⟨?_, ?_⟩
      · rw [show (d0 :: ([] : List Char)) = renderDigits c from hdt.symm, chars2Nat_renderDigits]
      · simp only [List.length_nil] at ha ⊢
        push_cast at ha ⊢
        omega
    · have htne : tail.isEmpty = false := by
        cases tail with
        | nil => exact absurd rfl htnil
        | cons x l => rfl
      simp only [htne, Bool.false_eq_true, if_false]
      have hpe := parse_exponent hd0 htail hapos ('.' :: tail) (Or.inr rfl)
        (by intro h; simp at h)
      rw [hpe]
      simp only [Option.some.injEq, PyDec.mk.injEq, true_and]
      refine ⟨?_, ?_⟩
      · rw [← hdt, chars2Nat_renderDigits]
      · push_cast at ha ⊢
        omega
  · -- adjusted exponent nonnegative but outside plain range: impossible here
    rename_i h4
    exfalso
    have hB : ¬ (-6 ≤ e + ((tail.length + 1 : Nat) : Int) - 1) := fun hb => h1 ⟨he2, hb⟩
    omega

/-! ## Value lemmas for the amount codec -/

theorem q10_eq_zpow (e : Int) : q10 e = (10 : ℚ) ^ e := by
  unfold q10
  split_ifs with h
  · rw [← zpow_natCast, Int.toNat_of_nonneg h]
  · rw [← zpow_natCast, Int.toNat_of_nonneg (by omega : (0 : Int) ≤ -e), ← zpow_neg, neg_neg]

theorem q10_pos (e : Int) : 0 < q10 e := by
  rw [q10_eq_zpow]
  positivity

theorem q10_add_nat (e : Int) (k : Nat) : q10 (e + k) = q10 e * (10 : ℚ) ^ k := by
  rw [q10_eq_zpow, q10_eq_zpow, ← zpow_natCast (10 : ℚ) k,
    zpow_add₀ (by norm_num : (10 : ℚ) ≠ 0)]

theorem stripZeros_spec (k : Nat) : ∀ n : Nat, 0 < n →
    (stripZeros k n).1 * 10 ^ (stripZeros k n).2 = n ∧ (stripZeros k n).2 ≤ k ∧
      0 < (stripZeros k n).1 := by
  induction k with
  | zero => intro n hn; exact ⟨by simp [stripZeros], by simp [stripZeros], by simpa [stripZeros]⟩
  | succ k ih =>
    intro n hn
    by_cases h10 : n % 10 = 0
    · have hdiv : 0 < n / 10 := by omega
      obtain ⟨ih1, ih2, ih3⟩ := ih (n / 10) hdiv
      simp only [stripZeros, h10, if_true]
      refine ⟨?_, by omega, ih3⟩
      have : (stripZeros k (n / 10)).1 * 10 ^ ((stripZeros k (n / 10)).2 + 1) =
          (stripZeros k (n / 10)).1 * 10 ^ (stripZeros k (n / 10)).2 * 10 := by ring
      rw [this, ih1]
      omega
    · simp only [stripZeros, h10, if_false]
      exact ⟨by simp, by omega, hn⟩

/-- The rendered quotient string parses back to the exact rational
`value / 10^7`, for the int64 range the codec uses. -/
theorem from_xdr_amount_decValue {v : Int} (h0 : 0 ≤ v) (h19 : v < 10 ^ 19) :
    decValue? (Operation.from_xdr_amount v) = some ((v : ℚ) / 10 ^ 7) := by
  by_cases hv0 : v = 0
  · subst hv0
    rw [show Operation.from_xdr_amount 0 = "0" from rfl]
    unfold decValue? parsePyDec
    rw [show ("0" : String).data = ['0'] from rfl]
    rw [parse_digits_only (by decide) (by intro x hx; simp at hx)]
    simp [PyDec.val, chars2Nat, q10]
  · have hvpos : 0 < v := by omega
    have hnpos : 0 < v.natAbs := by omega
    obtain ⟨hs1, hs2, hs3⟩ := stripZeros_spec 7 v.natAbs hnpos
    have hmle : (stripZeros 7 v.natAbs).1 ≤ v.natAbs := by
      have h1le : 1 ≤ 10 ^ (stripZeros 7 v.natAbs).2 := Nat.one_le_pow _ _ (by omega)
      calc (stripZeros 7 v.natAbs).1 = (stripZeros 7 v.natAbs).1 * 1 := by omega
        _ ≤ (stripZeros 7 v.natAbs).1 * 10 ^ (stripZeros 7 v.natAbs).2 :=
          Nat.mul_le_mul_left _ h1le
        _ = v.natAbs := hs1
    have hnd : numDigits (stripZeros 7 v.natAbs).1 ≤ 28 := by
      have hna : v.natAbs < 10 ^ 19 := by omega
      have := numDigits_le_of_lt_pow (lt_of_le_of_lt hmle hna)
      omega
    unfold Operation.from_xdr_amount
    rw [if_neg hv0]
    simp only [if_pos hnd, if_neg (by omega : ¬ v < 0), List.nil_append]
    unfold decValue? parsePyDec
    have hdata : (String.mk (sciChars (stripZeros 7 v.natAbs).1
        (((stripZeros 7 v.natAbs).2 : Int) - 7))).data =
        sciChars (stripZeros 7 v.natAbs).1 (((stripZeros 7 v.natAbs).2 : Int) - 7) := rfl
    rw [hdata, parse_sciChars hs3 (by omega)]
    simp only [Option.map_some']
    congr 1
    unfold PyDec.val
    simp only [Bool.false_eq_true, if_false, one_mul]
    rw [q10_eq_zpow]
    have hqv : ((v.natAbs : ℚ)) = (v : ℚ) := by
      rw [← @Int.cast_natCast ℚ _ v.natAbs, Int.natAbs_of_nonneg h0]
    have hsplit : ((stripZeros 7 v.natAbs).1 : ℚ) * (10 : ℚ) ^ (((stripZeros 7 v.natAbs).2 : Int) - 7) =
        ((stripZeros 7 v.natAbs).1 : ℚ) * (10 : ℚ) ^ ((stripZeros 7 v.natAbs).2 : Int) / (10 : ℚ) ^ (7 : Nat) := by
      rw [zpow_sub₀ (by norm_num : (10 : ℚ) ≠ 0)]
      norm_num
      ring
    rw [hsplit]
    congr 1
    rw [← hqv]
    rw [show ((10 : ℚ) ^ ((stripZeros 7 v.natAbs).2 : Int)) = ((10 : ℚ) ^ (stripZeros 7 v.natAbs).2 : ℚ) by
      rw [← zpow_natCast]]
    rw [← @Nat.cast_ofNat ℚ 10 _ _, ← Nat.cast_pow, ← Nat.cast_mul, hs1]


theorem pymul7_val {c : Nat} (h28 : numDigits c ≤ 28) (e : Int) :
    ((pymul7 c e).1 : ℚ) * q10 ((pymul7 c e).2) = (c : ℚ) * 10 ^ 7 * q10 e := by
  unfold pymul7
  by_cases hle : numDigits (c * 10 ^ 7) ≤ 28
  · simp only [if_pos hle]
    push_cast
    ring
  · simp only [if_neg hle]
    have hc0 : c ≠ 0 := by
      intro h
      subst h
      simp [numDigits_zero] at hle
    have hd7 : numDigits (c * 10 ^ 7) = numDigits c + 7 := numDigits_mul_pow10 hc0 7
    unfold round28
    have hdropge : 1 ≤ numDigits (c * 10 ^ 7) - 28 := by omega
    have hdrople : numDigits (c * 10 ^ 7) - 28 ≤ 7 := by omega
    have hdvd : 10 ^ (numDigits (c * 10 ^ 7) - 28) ∣ c * 10 ^ 7 :=
      Dvd.dvd.mul_left (pow_dvd_pow 10 hdrople) c
    have hmz : ∀ a b : Nat, b ∣ a → a % b = 0 := by
      intro a b hab
      obtain ⟨t, ht⟩ := hab
      rw [ht]
      exact Nat.mul_mod_right _ _
    have hr : c * 10 ^ 7 % 10 ^ (numDigits (c * 10 ^ 7) - 28) = 0 := hmz _ _ hdvd
    dsimp only
    rw [hr]
    have h10d : 10 ≤ 10 ^ (numDigits (c * 10 ^ 7) - 28) := by
      calc (10 : Nat) = 10 ^ 1 := (pow_one 10).symm
        _ ≤ 10 ^ (numDigits (c * 10 ^ 7) - 28) := Nat.pow_le_pow_right (by omega) hdropge
    rw [if_neg (show ¬ (10 ^ (numDigits (c * 10 ^ 7) - 28) / 2 < 0) by omega)]
    rw [if_pos (show 0 < 10 ^ (numDigits (c * 10 ^ 7) - 28) / 2 by omega)]
    have hqlt : c * 10 ^ 7 / 10 ^ (numDigits (c * 10 ^ 7) - 28) < 10 ^ 28 := by
      apply Nat.div_lt_of_lt_mul
      calc c * 10 ^ 7 < 10 ^ (numDigits (c * 10 ^ 7)) := lt_pow_numDigits _
        _ = 10 ^ (numDigits (c * 10 ^ 7) - 28) * 10 ^ 28 := by
          rw [← pow_add]
          congr 1
          omega
    rw [if_neg (show ¬ (c * 10 ^ 7 / 10 ^ (numDigits (c * 10 ^ 7) - 28) = 10 ^ 28) by omega)]
    dsimp only
    rw [q10_add_nat]
    have hcast : ((c * 10 ^ 7 / 10 ^ (numDigits (c * 10 ^ 7) - 28) : Nat) : ℚ) =
        ((c * 10 ^ 7 : Nat) : ℚ) / ((10 ^ (numDigits (c * 10 ^ 7) - 28) : Nat) : ℚ) :=
      Nat.cast_div hdvd (by positivity)
    rw [hcast]
    have hp0 : ((10 ^ (numDigits (c * 10 ^ 7) - 28) : Nat) : ℚ) ≠ 0 := by positivity
    push_cast at hp0 ⊢
    field_simp
    ring

theorem toIntegralExact_some {c m : Nat} {e : Int} :
    toIntegralExact c e = some m ↔ (m : ℚ) = (c : ℚ) * q10 e := by
  unfold toIntegralExact q10
  split_ifs with he hdvd
  · rw [Option.some_inj]
    rw [show ((c : ℚ) * 10 ^ e.toNat) = ((c * 10 ^ e.toNat : Nat) : ℚ) by push_cast; ring]
    rw [Nat.cast_inj]
    exact ⟨fun h => by rw [h], fun h => h.symm⟩
  · rw [Option.some_inj]
    have hcast : ((c / 10 ^ (-e).toNat : Nat) : ℚ) = (c : ℚ) * ((10 : ℚ) ^ (-e).toNat)⁻¹ := by
      rw [Nat.cast_div hdvd (by positivity)]
      push_cast
      ring
    constructor
    · intro h
      rw [← h, hcast]
    · intro h
      have h2 : (m : ℚ) = ((c / 10 ^ (-e).toNat : Nat) : ℚ) := by rw [hcast]; exact h
      exact (Nat.cast_inj.mp h2).symm
  · constructor
    · intro h
      exact absurd h (by simp)
    · intro h
      exfalso
      apply hdvd
      have hne : ((10 : ℚ) ^ (-e).toNat) ≠ 0 := by positivity
      have h2 : (m : ℚ) * (10 : ℚ) ^ (-e).toNat = (c : ℚ) := by
        field_simp at h
        linarith [h]
      have h3 : ((m * 10 ^ (-e).toNat : Nat) : ℚ) = ((c : Nat) : ℚ) := by push_cast; linarith [h2]
      have h4 : m * 10 ^ (-e).toNat = c := Nat.cast_inj.mp h3
      exact ⟨m, by rw [← h4, Nat.mul_comm]⟩

theorem toIntegralExact_none {c : Nat} {e : Int} :
    toIntegralExact c e = none ↔ ¬ ∃ n : Int, (n : ℚ) = (c : ℚ) * q10 e := by
  constructor
  · intro h0 hex
    obtain ⟨n, hn⟩ := hex
    have hge : (0 : ℚ) ≤ (c : ℚ) * q10 e := mul_nonneg (by positivity) (le_of_lt (q10_pos e))
    have hn0 : 0 ≤ n := by
      have : (0 : ℚ) ≤ (n : ℚ) := by rw [hn]; exact hge
      exact_mod_cast this
    have hmq : ((n.toNat : Nat) : ℚ) = (c : ℚ) * q10 e := by
      rw [← hn]
      have : ((n.toNat : Int)) = n := Int.toNat_of_nonneg hn0
      rw [← @Int.cast_natCast ℚ _ n.toNat, this]
    have := toIntegralExact_some.mpr hmq
    rw [h0] at this
    cases this
  · intro h
    cases hh : toIntegralExact c e with
    | none => rfl
    | some m =>
      exact absurd ⟨(m : Int), by exact_mod_cast toIntegralExact_some.mp hh⟩ h

theorem exists_int_cast_neg_iff (x : ℚ) :
    (∃ n : Int, (n : ℚ) = -x) ↔ (∃ n : Int, (n : ℚ) = x) := by
  constructor
  · rintro ⟨n, h⟩
    exact ⟨-n, by push_cast; linarith⟩
  · rintro ⟨n, h⟩
    exact ⟨-n, by push_cast; linarith⟩

/-- C5 (amended): for every decimal string whose coefficient fits in the
28-significant-digit context precision, `Operation.to_xdr_amount`
multiplies by 10^7 exactly and raises the `ValueError` condition if and
only if the scaled result is not an integer, the value is negative, or
the scaled result exceeds 9223372036854775807; a successful result is
exactly the scaled value.  (Inputs with more than 28 significant digits
are first rounded half-even by the default decimal context, so the
claimed equivalence fails there: see the counterexample.) -/
theorem to_xdr_amount_spec {s : String} {d : PyDec} (hp : parsePyDec s = some d)
    (h28 : numDigits d.coeff ≤ 28) :
    (Operation.to_xdr_amount s = .error .valueError ↔
      (¬ ∃ n : Int, (n : ℚ) = 10 ^ 7 * d.val) ∨ d.val < 0 ∨
        (9223372036854775807 : ℚ) < 10 ^ 7 * d.val) ∧
    (∀ n : Int, Operation.to_xdr_amount s = .ok n →
      (n : ℚ) = 10 ^ 7 * d.val ∧ 0 ≤ n ∧ n ≤ 9223372036854775807) := by
  have hval := pymul7_val h28 d.exp
  have hApos : (0 : ℚ) ≤ (d.coeff : ℚ) * q10 d.exp :=
    mul_nonneg (by positivity) (le_of_lt (q10_pos d.exp))
  have hA : (10 : ℚ) ^ 7 * ((d.coeff : ℚ) * q10 d.exp) =
      ((pymul7 d.coeff d.exp).1 : ℚ) * q10 ((pymul7 d.coeff d.exp).2) := by
    rw [hval]; ring
  unfold Operation.to_xdr_amount
  rw [hp]
  dsimp only
  cases hneg : d.neg with
  | false =>
    have hvd : d.val = (d.coeff : ℚ) * q10 d.exp := by
      unfold PyDec.val
      rw [hneg]
      norm_num
    cases hti : toIntegralExact (pymul7 d.coeff d.exp).1 (pymul7 d.coeff d.exp).2 with
    | none =>
      have hno := toIntegralExact_none.mp hti
      constructor
      · constructor
        · intro _
          left
          rw [hvd]
          intro hex
          exact hno (by rw [← hA]; exact hex)
        · intro _
          rfl
      · intro n hn
        cases hn
    | some m =>
      have hm : (m : ℚ) = ((pymul7 d.coeff d.exp).1 : ℚ) * q10 ((pymul7 d.coeff d.exp).2) :=
        toIntegralExact_some.mp hti
      have hm2 : (m : ℚ) = 10 ^ 7 * d.val := by rw [hvd, hA]; exact hm
      dsimp only
      rw [if_neg (show ¬ (false = true) by simp)]
      split_ifs with hrange
      · rcases hrange with hlt | hgt
        · exfalso
          omega
        · constructor
          · constructor
            · intro _
              right
              right
              rw [← hm2]
              exact_mod_cast hgt
            · intro _
              rfl
          · intro n hn
            cases hn
      · push_neg at hrange
        constructor
        · constructor
          · intro h
            cases h
          · intro h
            exfalso
            rcases h with h1 | h2 | h3
            · exact h1 ⟨(m : Int), by rw [← hm2]; push_cast; ring⟩
            · rw [hvd] at h2
              linarith [hApos]
            · rw [← hm2] at h3
              have : (9223372036854775807 : Int) < (m : Int) := by exact_mod_cast h3
              omega
        · intro n hn
          injection hn with hn
          subst hn
          refine ⟨by rw [← hm2]; push_cast; ring, by omega, by omega⟩
  | true =>
    have hvd : d.val = -((d.coeff : ℚ) * q10 d.exp) := by
      unfold PyDec.val
      rw [hneg]
      norm_num
    cases hti : toIntegralExact (pymul7 d.coeff d.exp).1 (pymul7 d.coeff d.exp).2 with
    | none =>
      have hno := toIntegralExact_none.mp hti
      constructor
      · constructor
        · intro _
          left
          rw [hvd]
          intro hex
          rw [show (10 : ℚ) ^ 7 * -((d.coeff : ℚ) * q10 d.exp) =
            -(10 ^ 7 * ((d.coeff : ℚ) * q10 d.exp)) by ring] at hex
          rw [exists_int_cast_neg_iff] at hex
          exact hno (by rw [← hA]; exact hex)
        · intro _
          rfl
      · intro n hn
        cases hn
    | some m =>
      have hm : (m : ℚ) = ((pymul7 d.coeff d.exp).1 : ℚ) * q10 ((pymul7 d.coeff d.exp).2) :=
        toIntegralExact_some.mp hti
      have hm2 : (m : ℚ) = -(10 ^ 7 * d.val) := by
        rw [hvd, show -(10 ^ 7 * -((d.coeff : ℚ) * q10 d.exp)) =
          10 ^ 7 * ((d.coeff : ℚ) * q10 d.exp) by ring, hA]
        exact hm
      dsimp only
      rw [if_pos rfl]
      split_ifs with hrange
      · rcases hrange with hlt | hgt
        · -- amount = -m < 0, so m > 0, so the value is negative
          have hmpos : 0 < m := by omega
          constructor
          · constructor
            · intro _
              right
              left
              have : (0 : ℚ) < (m : ℚ) := by exact_mod_cast hmpos
              nlinarith [this, hm2]
            · intro _
              rfl
          · intro n hn
            cases hn
        · exfalso
          omega
      · push_neg at hrange
        have hm0 : m = 0 := by omega
        subst hm0
        constructor
        · constructor
          · intro h
            cases h
          · intro h
            exfalso
            have hz : (10 : ℚ) ^ 7 * d.val = 0 := by
              have : ((0 : Nat) : ℚ) = -(10 ^ 7 * d.val) := hm2
              simp at this
              linarith [this]
            rcases h with h1 | h2 | h3
            · exact h1 ⟨0, by rw [hz]; simp⟩
            · nlinarith [hz, h2]
            · rw [hz] at h3
              norm_num at h3
        · intro n hn
          injection hn with hn
          subst hn
          have hz : (10 : ℚ) ^ 7 * d.val = 0 := by
            have : ((0 : Nat) : ℚ) = -(10 ^ 7 * d.val) := hm2
            simp at this
            linarith [this]
          refine ⟨by rw [hz]; simp, by omega, by omega⟩

theorem one_le_q10 {e : Int} (he : 0 ≤ e) : (1 : ℚ) ≤ q10 e := by
  rw [q10_eq_zpow]
  exact one_le_zpow₀ (by norm_num) he

/-- C4 (amended): for every decimal string with at most 7 fractional
digits (exponent at least -7) whose value is in [0, 922337203685.4775807],
the amount codec round-trips exactly at the level of numeric value:
`to_xdr_amount` succeeds and `from_xdr_amount` of the result denotes the
same rational number.  The round-trip does not always return the same
string: trailing fractional zeros are normalized away and values below
10^-6 are printed in scientific notation. -/
theorem to_from_roundtrip {s : String} {d : PyDec} (hp : parsePyDec s = some d)
    (hfrac : -7 ≤ d.exp) (hpos : 0 ≤ d.val)
    (hmax : 10 ^ 7 * d.val ≤ (9223372036854775807 : ℚ)) :
    ∃ n : Int, Operation.to_xdr_amount s = .ok n ∧
      decValue? (Operation.from_xdr_amount n) = some d.val := by
  have hq := q10_pos d.exp
  have hten : (10 : ℚ) ≠ 0 := by norm_num
  have hvalA : d.val = (d.coeff : ℚ) * q10 d.exp := by
    unfold PyDec.val at hpos ⊢
    cases hneg : d.neg with
    | false =>
      norm_num
    | true =>
      rw [hneg] at hpos
      norm_num at hpos ⊢
      have h0 : (d.coeff : ℚ) * q10 d.exp = 0 :=
        le_antisymm hpos (mul_nonneg (by positivity) (le_of_lt hq))
      linarith [h0]
  have hscaled : 10 ^ 7 * d.val = (d.coeff : ℚ) * (10 : ℚ) ^ (d.exp + 7) := by
    rw [hvalA, q10_eq_zpow, zpow_add₀ hten]
    norm_num
    ring
  have hcle : (d.coeff : ℚ) ≤ 10 ^ 7 * d.val := by
    rw [hscaled]
    have h1 : (1 : ℚ) ≤ (10 : ℚ) ^ (d.exp + 7) := one_le_zpow₀ (by norm_num) (by omega)
    nlinarith [h1]
  have hcmax : (d.coeff : ℚ) ≤ (9223372036854775807 : ℚ) := le_trans hcle hmax
  have hcn : d.coeff ≤ 9223372036854775807 := by exact_mod_cast hcmax
  have h28 : numDigits d.coeff ≤ 28 :=
    le_trans (numDigits_le_of_lt_pow (lt_of_le_of_lt hcn
      (by norm_num : (9223372036854775807 : Nat) < 10 ^ 19))) (by norm_num)
  have hmq : ((d.coeff * 10 ^ (d.exp + 7).toNat : Nat) : ℚ) =
      ((pymul7 d.coeff d.exp).1 : ℚ) * q10 ((pymul7 d.coeff d.exp).2) := by
    rw [pymul7_val h28, q10_eq_zpow]
    push_cast
    rw [← zpow_natCast (10 : ℚ) (d.exp + 7).toNat, Int.toNat_of_nonneg
      (by omega : (0 : Int) ≤ d.exp + 7)]
    rw [zpow_add₀ hten]
    norm_num
    ring
  have hti : toIntegralExact (pymul7 d.coeff d.exp).1 (pymul7 d.coeff d.exp).2 =
      some (d.coeff * 10 ^ (d.exp + 7).toNat) := toIntegralExact_some.mpr hmq
  have hmval : ((d.coeff * 10 ^ (d.exp + 7).toNat : Nat) : ℚ) = 10 ^ 7 * d.val := by
    rw [hmq, pymul7_val h28 d.exp, hscaled, q10_eq_zpow, zpow_add₀ hten]
    norm_num
    ring
  have hmle : (d.coeff * 10 ^ (d.exp + 7).toNat : Nat) ≤ 9223372036854775807 := by
    have h2 : ((d.coeff * 10 ^ (d.exp + 7).toNat : Nat) : ℚ) ≤ (9223372036854775807 : ℚ) := by
      rw [hmval]
      exact hmax
    exact_mod_cast h2
  refine ⟨((d.coeff * 10 ^ (d.exp + 7).toNat : Nat) : Int), ?_, ?_⟩
  · unfold Operation.to_xdr_amount
    rw [hp]
    dsimp only
    rw [hti]
    dsimp only
    have hamt : (if d.neg = true then -((d.coeff * 10 ^ (d.exp + 7).toNat : Nat) : Int)
        else ((d.coeff * 10 ^ (d.exp + 7).toNat : Nat) : Int)) =
        ((d.coeff * 10 ^ (d.exp + 7).toNat : Nat) : Int) := by
      cases hneg : d.neg with
      | false => simp
      | true =>
        simp only [if_pos rfl]
        have hc0 : d.coeff = 0 := by
          by_contra hc0
          have hcpos : (0 : ℚ) < (d.coeff : ℚ) := by
            have h3 : 0 < d.coeff := Nat.pos_of_ne_zero hc0
            exact_mod_cast h3
          have h4 : d.val < 0 := by
            unfold PyDec.val
            rw [hneg]
            norm_num
            nlinarith [hq, hcpos]
          linarith [hpos]
        rw [hc0]
        simp
    rw [hamt]
    rw [if_neg (by omega)]
  · have h0n : (0 : Int) ≤ ((d.coeff * 10 ^ (d.exp + 7).toNat : Nat) : Int) := by positivity
    have h19 : ((d.coeff * 10 ^ (d.exp + 7).toNat : Nat) : Int) < 10 ^ 19 := by
      have h5 : (d.coeff * 10 ^ (d.exp + 7).toNat : Nat) < 10 ^ 19 := by omega
      exact_mod_cast h5
    rw [from_xdr_amount_decValue h0n h19]
    congr 1
    rw [show (((d.coeff * 10 ^ (d.exp + 7).toNat : Nat) : Int) : ℚ) =
      ((d.coeff * 10 ^ (d.exp + 7).toNat : Nat) : ℚ) by push_cast; ring]
    rw [hmval]
    field_simp

instance {ε α : Type} [DecidableEq ε] [DecidableEq α] : DecidableEq (Except ε α) := fun a b =>
  match a, b with
  | .ok x, .ok y =>
    if h : x = y then isTrue (by rw [h]) else isFalse (fun hc => by injection hc; contradiction)
  | .error x, .error y =>
    if h : x = y then isTrue (by rw [h]) else isFalse (fun hc => by injection hc; contradiction)
  | .ok _, .error _ => isFalse (fun hc => by injection hc)
  | .error _, .ok _ => isFalse (fun hc => by injection hc)

instance {ε α : Type} [DecidableEq ε] [DecidableEq α] : DecidableEq (Except ε α) := fun a b =>
  match a, b with
  | .ok x, .ok y =>
    if h : x = y then isTrue (by rw [h]) else isFalse (fun hc => by injection hc; contradiction)
  | .error x, .error y =>
    if h : x = y then isTrue (by rw [h]) else isFalse (fun hc => by injection hc; contradiction)
  | .ok _, .error _ => isFalse (fun hc => by injection hc)
  | .error _, .ok _ => isFalse (fun hc => by injection hc)

/-- C5 counterexample: this literal has 28 fractional digits (29
significant digits), so the claim as stated demands a `ValueError`; the
default 28-digit context precision makes the multiplication round the
product to an integer first, and the code silently accepts the input,
returning `10000000`. -/
theorem to_xdr_amount_rounding_counterexample :
    decValue? "1.0000000000000000000000000001" = some (1 + 1 / 10 ^ 28) ∧
    (¬ ∃ n : Int, (n : ℚ) = 10 ^ 7 * (1 + 1 / 10 ^ 28)) ∧
    Operation.to_xdr_amount "1.0000000000000000000000000001" = .ok 10000000 := by
  refine ⟨?_, ?_, rfl⟩
  · unfold decValue?
    rw [show parsePyDec "1.0000000000000000000000000001" =
      some ⟨false, 10000000000000000000000000001, -28⟩ from rfl]
    simp only [Option.map_some']
    congr 1
    unfold PyDec.val
    rw [q10_eq_zpow]
    norm_num
  · rintro ⟨n, hn⟩
    have h2 : (n : ℚ) * 10 ^ 21 = 10 ^ 28 + 1 := by
      rw [hn]
      norm_num
    have h3 : (n * 10 ^ 21 : Int) = 10 ^ 28 + 1 := by exact_mod_cast h2
    omega

/-- C4 counterexample: the string "1.0" is a valid amount (one
fractional digit, value in range) but does not survive the round-trip
as a string: the trailing zero is normalized away. -/
theorem amount_string_roundtrip_counterexample :
    decValue? "1.0" = some 1 ∧
    Operation.to_xdr_amount "1.0" = .ok 10000000 ∧
    Operation.from_xdr_amount 10000000 = "1" ∧ ("1" : String) ≠ "1.0" := by
  refine ⟨?_, rfl, rfl, by decide⟩
  unfold decValue?
  rw [show parsePyDec "1.0" = some ⟨false, 10, -1⟩ from rfl]
  simp only [Option.map_some']
  congr 1
  unfold PyDec.val
  rw [q10_eq_zpow]
  norm_num

/-- Witness for the amended C5 theorem at the concrete input "10.5". -/
theorem to_xdr_amount_spec_witness :
    ((105000000 : Int) : ℚ) = 10 ^ 7 * PyDec.val ⟨false, 105, -1⟩ ∧
      (0 : Int) ≤ 105000000 ∧ (105000000 : Int) ≤ 9223372036854775807 :=
  (to_xdr_amount_spec
    (show parsePyDec "10.5" = some ⟨false, 105, -1⟩ from rfl) (by decide)).2
    105000000 (show Operation.to_xdr_amount "10.5" = .ok 105000000 from rfl)

/-- Witness for the amended C4 theorem at the concrete input "10.5". -/
theorem to_from_roundtrip_witness :
    ∃ n : Int, Operation.to_xdr_amount "10.5" = .ok n ∧
      decValue? (Operation.from_xdr_amount n) = some (PyDec.val ⟨false, 105, -1⟩) :=
  to_from_roundtrip
    (show parsePyDec "10.5" = some ⟨false, 105, -1⟩ from rfl) (by decide)
    (by unfold PyDec.val; rw [q10_eq_zpow]; norm_num)
    (by unfold PyDec.val; rw [q10_eq_zpow]; norm_num)

/-! ## Domain model

The value types the five embedded files manipulate.  `muxed_account.py`,
`memo.py`, `time_bounds.py`, `keypair.py`, `strkey.py` and the operation
variant files are repository modules that are not among the embedded
files, so their data is modelled from the specification (spec section 3).
Raw 32-byte ed25519 keys are represented by their `Nat` value; the
base32/CRC16 strkey address encoding carries no information beyond the
key itself for the claims below, so `StrKey.encode_ed25519_public_key`
and `Keypair.from_public_key` act on the key value directly. -/

/-- Modelled from the spec: a muxed account is a plain ed25519 account id
or an ed25519 id plus a 64-bit sub-id; field names follow
`transaction.py` line 68 (`account_id`, `account_id_id`). -/
structure MuxedAccount where
  account_id : Nat
  account_id_id : Option Nat
  deriving DecidableEq, Repr

/-- Modelled from the spec: the memo tagged union (spec section 3). -/
inductive Memo where
  | none
  | text (bytes : List Nat)
  | id (value : Nat)
  | hash (bytes : List Nat)
  | ret (bytes : List Nat)
  deriving DecidableEq, Repr

/-- Modelled from the spec: a pair of 64-bit Unix timestamps. -/
structure TimeBounds where
  min_time : Nat
  max_time : Nat
  deriving DecidableEq, Repr

/-- Modelled from the spec: an operation carries an optional source
account override, an integer type code and a variant body.  The variant
classes are repository modules not among the embedded files; the body is
modelled as the destination (consulted by the memo-required check for
the four destination-bearing kinds) plus an opaque payload standing for
the remaining variant fields. -/
structure Operation where
  source : Option MuxedAccount
  typeCode : Nat
  destination : MuxedAccount
  payload : Nat
  deriving DecidableEq, Repr

/-- The `Transaction` object of transaction.py (fields of `__init__`,
lines 51-78). -/
structure Transaction where
  source : MuxedAccount
  sequence : Int
  fee : Nat
  operations : List Operation
  memo : Memo
  time_bounds : Option TimeBounds
  v1 : Bool
  deriving DecidableEq, Repr

/-- Modelled from the spec: a decorated signature is a 4-byte hint plus
a 64-byte ed25519 signature, represented by their values. -/
structure DecoratedSignature where
  hint : Nat
  signature : Nat
  deriving DecidableEq, Repr

/-- The `TransactionEnvelope` object of transaction_envelope.py
(constructor lines 33-40): one transaction, the network passphrase held
by `BaseTransactionEnvelope`, and the signature list. -/
structure TransactionEnvelope where
  transaction : Transaction
  network_passphrase : String
  signatures : List DecoratedSignature
  deriving DecidableEq, Repr

/-! ## The generated XDR object layer

Modelled from the spec: the `stellar_sdk.xdr` package (referenced from
the embedded files both as `stellarxdr` and as `Xdr`) is repository code
that is not among the embedded files.  Its generated classes are plain
records; the envelope-type enum values are the protocol constants
`ENVELOPE_TYPE_TX_V0 = 0` and `ENVELOPE_TYPE_TX = 2`. -/

/-- Modelled from the spec: the XDR `MuxedAccount` union
(`KEY_TYPE_ED25519` or `KEY_TYPE_MUXED_ED25519`). -/
structure XdrMuxedAccount where
  ed25519 : Nat
  id : Option Nat
  deriving DecidableEq, Repr

/-- Modelled from the spec: the XDR `Operation` record (optional source
account, then the discriminant-tagged body). -/
structure XdrOperation where
  sourceAccount : Option Nat
  typeCode : Nat
  destination : XdrMuxedAccount
  payload : Nat
  deriving DecidableEq, Repr

/-- Modelled from the spec: the XDR v1 `Transaction` record (tagged
MuxedAccount source). -/
structure XdrTransaction where
  sourceAccount : XdrMuxedAccount
  fee : Nat
  seqNum : Int
  timeBounds : Option TimeBounds
  memo : Memo
  operations : List XdrOperation
  ext : Nat
  deriving DecidableEq, Repr

/-- Modelled from the spec: the XDR legacy `TransactionV0` record (raw
ed25519 source key). -/
structure XdrTransactionV0 where
  sourceAccountEd25519 : Nat
  fee : Nat
  seqNum : Int
  timeBounds : Option TimeBounds
  memo : Memo
  operations : List XdrOperation
  ext : Nat
  deriving DecidableEq, Repr

/-- Either of the two XDR transaction shapes `Transaction.to_xdr_object`
can build. -/
inductive XdrTxAny where
  | v0 (tx : XdrTransactionV0)
  | v1 (tx : XdrTransaction)
  deriving DecidableEq, Repr

/-- Modelled from the spec: the XDR `TransactionV0Envelope` record,
built as `TransactionV0Envelope(tx, signatures)` at
transaction_envelope.py line 80. -/
structure XdrTransactionV0Envelope where
  tx : XdrTransactionV0
  signatures : List DecoratedSignature
  deriving DecidableEq, Repr

/-- Modelled from the spec: the XDR `TransactionV1Envelope` record. -/
structure XdrTransactionV1Envelope where
  tx : XdrTransaction
  signatures : List DecoratedSignature
  deriving DecidableEq, Repr

/-- Modelled from the spec: the XDR `TransactionEnvelope` union: a type
discriminant and whichever arm was filled in; reading an absent arm is a
Python attribute error. -/
structure XdrTransactionEnvelope where
  type : Nat
  v0 : Option XdrTransactionV0Envelope
  v1 : Option XdrTransactionV1Envelope
  deriving DecidableEq, Repr

/-- `ENVELOPE_TYPE_TX_V0` in the protocol enum. -/
def ENVELOPE_TYPE_TX_V0 : Nat := 0

/-- `ENVELOPE_TYPE_TX` in the protocol enum. -/
def ENVELOPE_TYPE_TX : Nat := 2

/-- The dynamic argument `Transaction.from_xdr_object` can receive: the
call sites pass a v1 transaction, a v0 transaction, or (at
transaction_envelope.py lines 104 and 107) a whole envelope record. -/
inductive XdrDyn where
  | tx (t : XdrTransaction)
  | txV0 (t : XdrTransactionV0)
  | envV0 (e : XdrTransactionV0Envelope)
  | envV1 (e : XdrTransactionV1Envelope)
  deriving DecidableEq, Repr

/-- Wraps a transaction xdr object for a `from_xdr_object` call. -/
def XdrTxAny.toDyn : XdrTxAny → XdrDyn
  | .v0 t => .txV0 t
  | .v1 t => .tx t

/-! ## Byte-level encoding (spec section 4.1) and transport helpers -/

/-- Big-endian bytes of `n` in a fixed width (least byte last). -/
def beBytes : Nat → Nat → List Nat
  | 0, _ => []
  | w + 1, n => beBytes w (n / 256) ++ [n % 256]

/-- A 4-byte big-endian unsigned integer. -/
def be32 (n : Nat) : List Nat := beBytes 4 n

/-- An 8-byte big-endian unsigned integer. -/
def be64 (n : Nat) : List Nat := beBytes 8 n

/-- A signed 64-bit integer, two's complement, big-endian. -/
def be64i (n : Int) : List Nat := beBytes 8 ((n % (2 ^ 64 : Nat)).toNat)

/-- A 32-byte value (an ed25519 key or a hash), big-endian. -/
def be256 (n : Nat) : List Nat := beBytes 32 n

/-- Modelled from the spec: variable-length opaque data is a 4-byte
length followed by the bytes, zero-padded to a multiple of 4. -/
def packOpaque (bs : List Nat) : List Nat :=
  be32 bs.length ++ bs ++ List.replicate ((4 - bs.length % 4) % 4) 0

/-- Modelled from the spec: a muxed account encodes as the
`KEY_TYPE_ED25519` arm (tag 0) or the `KEY_TYPE_MUXED_ED25519` arm
(tag 0x100 followed by the 64-bit sub-id). -/
def packMuxedAccount (m : XdrMuxedAccount) : List Nat :=
  match m.id with
  | none => be32 0 ++ be256 m.ed25519
  | some i => be32 256 ++ be64 i ++ be256 m.ed25519

/-- Modelled from the spec: a memo encodes with a leading discriminant. -/
def packMemo : Memo → List Nat
  | .none => be32 0
  | .text bs => be32 1 ++ packOpaque bs
  | .id v => be32 2 ++ be64 v
  | .hash bs => be32 3 ++ bs
  | .ret bs => be32 4 ++ bs

/-- Modelled from the spec: optional time bounds encode as a presence
flag followed by the two 64-bit timestamps. -/
def packTimeBounds : Option TimeBounds → List Nat
  | none => be32 0
  | some tb => be32 1 ++ be64 tb.min_time ++ be64 tb.max_time

/-- Modelled from the spec: an operation encodes as the optional source
account followed by the discriminant-tagged body (the body is the
destination plus the opaque payload of the variant model). -/
def packOperation (op : XdrOperation) : List Nat :=
  (match op.sourceAccount with
   | none => be32 0
   | some k => be32 1 ++ be256 k) ++
  be32 op.typeCode ++ packMuxedAccount op.destination ++ be64 op.payload

/-- Modelled from the spec: `pack_Transaction` of the generated packer —
the v1 transaction body: muxed source, fee, sequence number, optional
time bounds, memo, length-prefixed operation list and the zero
extension point. -/
def packTransactionV1 (t : XdrTransaction) : List Nat :=
  packMuxedAccount t.sourceAccount ++ be32 t.fee ++ be64i t.seqNum ++
    packTimeBounds t.timeBounds ++ packMemo t.memo ++
    be32 t.operations.length ++ (t.operations.map packOperation).flatten ++ be32 t.ext

/-- Modelled from the spec: the legacy v0 transaction body (raw ed25519
source key instead of the tagged muxed account). -/
def packTransactionV0 (t : XdrTransactionV0) : List Nat :=
  be256 t.sourceAccountEd25519 ++ be32 t.fee ++ be64i t.seqNum ++
    packTimeBounds t.timeBounds ++ packMemo t.memo ++
    be32 t.operations.length ++ (t.operations.map packOperation).flatten ++ be32 t.ext

/-- Modelled from the spec: a decorated signature is the 4-byte hint
followed by the length-prefixed signature bytes. -/
def packDecoratedSignature (s : DecoratedSignature) : List Nat :=
  be32 s.hint ++ packOpaque (beBytes 64 s.signature)

/-- Modelled from the spec: the envelope union encodes as the type
discriminant followed by the chosen arm (transaction plus
length-prefixed signature list). -/
def packEnvelope (e : XdrTransactionEnvelope) : List Nat :=
  be32 e.type ++
  (match e.v0 with
   | some v => packTransactionV0 v.tx ++ be32 v.signatures.length ++
       (v.signatures.map packDecoratedSignature).flatten
   | none =>
     match e.v1 with
     | some v => packTransactionV1 v.tx ++ be32 v.signatures.length ++
         (v.signatures.map packDecoratedSignature).flatten
     | none => [])

/-- The standard base64 alphabet. -/
def b64Alphabet : List Char :=
  "ABCDEFGHIJKLMNOPQRSTUVWXYZabcdefghijklmnopqrstuvwxyz0123456789+/".data

/-- One base64 character for a 6-bit group. -/
def b64Char (n : Nat) : Char := b64Alphabet.getD n '?'

/-- Base64 of a byte list (RFC 4648, with padding), as the stdlib
`base64.b64encode` computes it. -/
def b64Encode : List Nat → List Char
  | [] => []
  | [a] =>
    [b64Char (a / 4), b64Char (a % 4 * 16), '=', '=']
  | [a, b] =>
    [b64Char (a / 4), b64Char (a % 4 * 16 + b / 16), b64Char (b % 16 * 4), '=']
  | a :: b :: c :: rest =>
    b64Char (a / 4) :: b64Char (a % 4 * 16 + b / 16) ::
      b64Char (b % 16 * 4 + c / 64) :: b64Char (c % 64) :: b64Encode rest

/-- Modelled from the spec: SHA-256 stand-in.  The network id is the
32-byte hash of the passphrase and the signing payload is the hash of
the signature base; the claims below depend only on this being a fixed
deterministic function into 32-byte values, not on the real SHA-256
compression, so an injective-by-construction accumulation over the
input stands in for it. -/
def sha256Model (bs : List Nat) : Nat :=
  (bs.foldl (fun a b => a * 257 + (b % 256) + 1) 1) % (2 ^ 256)

/-- The bytes of a string, as UTF-8 code points reduced to byte values. -/
def strBytes (s : String) : List Nat := s.data.map (fun c => c.toNat % 256)

/-- Modelled from the spec: `Network(network_passphrase).network_id()`,
the 32-byte hash of the passphrase (`network.py` is not among the
embedded files). -/
def networkId (passphrase : String) : List Nat := be256 (sha256Model (strBytes passphrase))

/-! ## The embedded operation and transaction code -/

/-- `Operation.to_xdr_object` (operation/operation.py lines 121-132).
When a source override is present the code evaluates
`Keypair.from_public_key(self.source)` on the `MuxedAccount` object held
in `self.source` (the `# TODO muxaccount` comment marks it): strkey
decoding of a non-string raises the sdk `TypeError`.  Without a source
override it builds `stellarxdr.Operation(None, body)`. -/
def Operation.to_xdr_object (op : Operation) : Except PyErr XdrOperation :=
  match op.source with
  | some _ => .error .typeError
  | none => .ok ⟨none, op.typeCode, ⟨op.destination.account_id, op.destination.account_id_id⟩,
      op.payload⟩

/-- `Transaction.to_xdr_object` (transaction.py lines 80-106).  The memo,
operation list, time bounds and extension point are computed first
(lines 85-90).  The v1 branch (lines 91-100) then evaluates the name
`source_account`, which is bound nowhere in the function or module: a
`NameError`.  The v0 branch builds `Xdr.types.TransactionV0` from the
raw ed25519 key of the source account. -/
def Transaction.to_xdr_object (t : Transaction) : Except PyErr XdrTxAny := do
  let memoX := t.memo
  let opsX ← t.operations.mapM Operation.to_xdr_object
  let tbX := t.time_bounds
  let extX : Nat := 0
  if t.v1 then
    .error .nameError
  else
    .ok (.v0 ⟨t.source.account_id, t.fee, t.sequence, tbX, memoX, opsX, extX⟩)

/-- Modelled from the spec: `MuxedAccount.from_xdr_object` rebuilds the
sdk value from the XDR union. -/
def MuxedAccount.from_xdr_object (x : XdrMuxedAccount) : MuxedAccount :=
  ⟨x.ed25519, x.id⟩

/-- `Transaction.from_xdr_object` (transaction.py lines 108-154).  The
v1/v0 branch (lines 124-129) reads `sourceAccount` respectively
`sourceAccountEd25519` of the argument — an attribute error when the
argument is an envelope record rather than a transaction.  The override
at lines 130-135 then rebuilds the source from the attribute chain
`source_account.account_id.ed25519.uint256`, which resolves on no
generated XDR transaction shape (the v1 records expose the source as a
`MuxedAccount` union without an `account_id` field and the v0 records
expose only the raw key), so the call raises an attribute error on
every input. -/
def Transaction.from_xdr_object (obj : XdrDyn) (v1 : Bool) : Except PyErr Transaction := do
  let _src1 ← (if v1 then
      match obj with
      | .tx t => .ok (MuxedAccount.from_xdr_object t.sourceAccount)
      | _ => .error .attributeError
    else
      match obj with
      | .txV0 t => .ok (MuxedAccount.mk t.sourceAccountEd25519 none)
      | _ => .error .attributeError)
  .error .attributeError

/-- `TransactionEnvelope.to_xdr_object` (transaction_envelope.py lines
68-81): encode the transaction, then wrap it in the envelope arm chosen
by the transaction's `v1` flag with the stored signature list.  The
mismatch arms cannot arise: `Transaction.to_xdr_object` yields a v0
record exactly when the flag is false. -/
def TransactionEnvelope.to_xdr_object (env : TransactionEnvelope) :
    Except PyErr XdrTransactionEnvelope := do
  let tx ← env.transaction.to_xdr_object
  if env.transaction.v1 then
    match tx with
    | .v1 xt => .ok ⟨ENVELOPE_TYPE_TX, none, some ⟨xt, env.signatures⟩⟩
    | .v0 _ => .error .typeError
  else
    match tx with
    | .v0 xt => .ok ⟨ENVELOPE_TYPE_TX_V0, some ⟨xt, env.signatures⟩, none⟩
    | .v1 _ => .error .typeError

/-- `TransactionEnvelope.to_xdr` (transaction_envelope.py lines 83-89):
the base64 string of the packed XDR object. -/
def TransactionEnvelope.to_xdr (env : TransactionEnvelope) : Except PyErr String := do
  let xo ← env.to_xdr_object
  .ok (String.mk (b64Encode (packEnvelope xo)))

/-- `TransactionEnvelope.from_xdr_object` (transaction_envelope.py lines
91-112): dispatch on the type discriminant; the v0 and v1 arms pass the
envelope record itself — not its inner transaction — to
`Transaction.from_xdr_object` (lines 104 and 107), and an unrecognized
discriminant raises `ValueError` (line 110).  Reading an absent union
arm is an attribute error. -/
def TransactionEnvelope.from_xdr_object (te : XdrTransactionEnvelope)
    (network_passphrase : String) : Except PyErr TransactionEnvelope :=
  if te.type = ENVELOPE_TYPE_TX_V0 then do
    let arm ← (match te.v0 with
      | some v => .ok v
      | none => .error .attributeError)
    let tx ← Transaction.from_xdr_object (.envV0 arm) false
    let signatures := arm.signatures
    .ok ⟨tx, network_passphrase, signatures⟩
  else if te.type = ENVELOPE_TYPE_TX then do
    let arm ← (match te.v1 with
      | some v => .ok v
      | none => .error .attributeError)
    let tx ← Transaction.from_xdr_object (.envV1 arm) true
    let signatures := arm.signatures
    .ok ⟨tx, network_passphrase, signatures⟩
  else .error .valueError

/-- `pack_EnvelopeType(ENVELOPE_TYPE_TX)` then `get_buffer()`
(transaction_envelope.py lines 56, 62, 64): the 4-byte big-endian enum. -/
def packEnvelopeType (n : Nat) : List Nat := be32 n

/-- `pack_Transaction` then `get_buffer()` (lines 57, 63, 65): the
packer method for the v1 `Transaction` record; handing it the legacy v0
record is a type error. -/
def pack_Transaction : XdrTxAny → Except PyErr (List Nat)
  | .v1 t => .ok (packTransactionV1 t)
  | .v0 _ => .error .typeError

/-- The computation inside `TransactionEnvelope.signature_base`
(transaction_envelope.py lines 42-66): read the network id; when the
stored transaction is not v1, rebuild it through
`Transaction.from_xdr_object(self.transaction.to_xdr_object(), v1=False)`
and set the `v1` flag on that fresh copy (lines 59-61); then concatenate
network id, the `ENVELOPE_TYPE_TX` tag and the packed transaction. -/
def signatureBaseRes (env : TransactionEnvelope) : Except PyErr (List Nat) := do
  let network_id := networkId env.network_passphrase
  let tx ← (if env.transaction.v1 = false then do
      let xo ← env.transaction.to_xdr_object
      let t ← Transaction.from_xdr_object xo.toDyn false
      pure { t with v1 := true }
    else
      pure env.transaction)
  let tx_type_buffer := packEnvelopeType ENVELOPE_TYPE_TX
  let xo2 ← tx.to_xdr_object
  let tx_buffer ← pack_Transaction xo2
  pure (network_id ++ tx_type_buffer ++ tx_buffer)

/-- `TransactionEnvelope.signature_base` with the post-call state made
explicit: the method assigns only to the locals `tx`, `tx_type` and
`tx_packer` — the `tx.v1 = True` mutation at line 61 targets the fresh
object built at line 60 — so the envelope (and in particular its stored
transaction) is returned unchanged. -/
def TransactionEnvelope.signature_base (env : TransactionEnvelope) :
    Except PyErr (List Nat) × TransactionEnvelope :=
  (signatureBaseRes env, env)

/-! ## Equality of transactions (transaction.py lines 184-194) -/

/-- `Operation.__eq__` (operation/operation.py lines 180-183): two
operations compare by their XDR objects, so encoding failures
propagate. -/
def opEq (o1 o2 : Operation) : Except PyErr Bool := do
  let x1 ← o1.to_xdr_object
  let x2 ← o2.to_xdr_object
  pure (decide (x1 = x2))

/-- Elementwise comparison, left to right, stopping at the first
mismatch or comparison error. -/
def opListEqGo : List Operation → List Operation → Except PyErr Bool
  | [], [] => .ok true
  | a :: as0, b :: bs0 => do
    let h ← opEq a b
    if h then opListEqGo as0 bs0 else pure false
  | _, _ => .ok false

/-- Python list equality on operation lists: lengths are compared first
(no element comparison when they differ), then elements left to right. -/
def opListEq (xs ys : List Operation) : Except PyErr Bool :=
  if xs.length ≠ ys.length then .ok false else opListEqGo xs ys

/-- `Transaction.__eq__` (transaction.py lines 184-194): the conjunction
of the six field comparisons, short-circuiting left to right; the `v1`
flag is not consulted. -/
def txEq (t1 t2 : Transaction) : Except PyErr Bool :=
  if t1.source = t2.source then
    if t1.sequence = t2.sequence then
      if t1.fee = t2.fee then do
        let b ← opListEq t1.operations t2.operations
        if b then
          pure (decide (t1.memo = t2.memo) && decide (t1.time_bounds = t2.time_bounds))
        else
          pure false
      else .ok false
    else .ok false
  else .ok false

/-! ## The memo-required destination enumeration (server.py lines 463-481) -/

/-- The tuple `memo_required_operation_code` of server.py lines 467-472:
the integer values of `PAYMENT`, `ACCOUNT_MERGE`,
`PATH_PAYMENT_STRICT_RECEIVE` and `PATH_PAYMENT_STRICT_SEND` in the
protocol operation-type enum. -/
def memoRequiredCodes : List Nat := [1, 8, 2, 13]

/-- The loop body of `Server.__get_check_memo_required_destinations`:
walk the operations with their indices, keeping the set of destinations
already yielded; destination-bearing operations whose account id was not
seen yield `(index, destination.account_id)` once. -/
def mrGo : Nat → List Nat → List Operation → List (Nat × Nat)
  | _, _, [] => []
  | i, seen, op :: rest =>
    if op.typeCode ∈ memoRequiredCodes then
      let d := op.destination.account_id
      if d ∈ seen then mrGo (i + 1) seen rest
      else (i, d) :: mrGo (i + 1) (d :: seen) rest
    else mrGo (i + 1) seen rest

/-- `Server.__get_check_memo_required_destinations` as the list the
generator yields (server.py lines 463-481). -/
def memoRequiredDestinations (tx : Transaction) : List (Nat × Nat) :=
  mrGo 0 [] tx.operations

/-! ## Signing (spec section 4.6) -/

/-- Modelled from the spec: an ed25519 keypair, optionally
secret-bearing (`keypair.py` is not among the embedded files). -/
structure Keypair where
  public_key : Nat
  secret : Option Nat
  deriving DecidableEq, Repr

/-- Modelled from the spec: the signature hint is the last 4 bytes of
the raw public key. -/
def Keypair.hint (kp : Keypair) : Nat := kp.public_key % 2 ^ 32

/-- Modelled from the spec: deterministic ed25519 signing stand-in — a
fixed function of the secret seed and the signed data; the claims below
depend only on determinism, not on the real ed25519 equations. -/
def edSign (sk : Nat) (data : List Nat) : Nat :=
  (sha256Model (be256 sk ++ data) * 2 ^ 256 + sha256Model data) % (2 ^ 512)

/-- Modelled from the spec: the signature base of section 4.6 — network
id, the `ENVELOPE_TYPE_TX` tag, and the transaction encoded in its v1
shape regardless of the stored version flag (the stored transaction is
not modified). -/
def specSignatureBase (env : TransactionEnvelope) : List Nat :=
  networkId env.network_passphrase ++ be32 ENVELOPE_TYPE_TX ++
    packTransactionV1
      ⟨⟨env.transaction.source.account_id, env.transaction.source.account_id_id⟩,
        env.transaction.fee, env.transaction.sequence, env.transaction.time_bounds,
        env.transaction.memo,
        env.transaction.operations.map (fun op =>
          ⟨op.source.map (fun m => m.account_id), op.typeCode,
            ⟨op.destination.account_id, op.destination.account_id_id⟩, op.payload⟩),
        0⟩

/-- Modelled from the spec: `BaseTransactionEnvelope.sign`
(`base_transaction_envelope.py` is not among the embedded files):
compute `hash = SHA-256(signature_base())`, sign it with the keypair
(failing when no secret seed is present), and append the decorated
signature — unless a signature with the same hint is already in the
list, in which case the `SignatureExist` condition is raised; the
comparison is by hint only. -/
def BaseTransactionEnvelope.sign (env : TransactionEnvelope) (kp : Keypair) :
    Except PyErr TransactionEnvelope :=
  match kp.secret with
  | none => .error .missingSecret
  | some sk =>
    let h := be256 (sha256Model (specSignatureBase env))
    let sig : DecoratedSignature := ⟨kp.hint, edSign sk h⟩
    if env.signatures.any (fun s => s.hint = kp.hint) then .error .signatureExist
    else .ok { env with signatures := env.signatures ++ [sig] }

/-! ## Concrete demonstration values -/

/-- A plain account id. -/
def demoAccount : MuxedAccount := ⟨7, none⟩

/-- A payment operation without a source override. -/
def demoOp : Operation := ⟨none, 1, ⟨9, none⟩, 105000000⟩

/-- A legacy (v0) transaction. -/
def demoTxV0 : Transaction := ⟨demoAccount, 100, 100, [demoOp], .none, none, false⟩

/-- The same transaction with the v1 flag. -/
def demoTxV1 : Transaction := ⟨demoAccount, 100, 100, [demoOp], .none, none, true⟩

/-- The testnet passphrase used throughout the repository. -/
def demoPassphrase : String := "Test SDF Network ; September 2015"

/-- A v0 envelope with no signatures. -/
def demoEnvV0 : TransactionEnvelope := ⟨demoTxV0, demoPassphrase, []⟩

/-- A v1 envelope with no signatures. -/
def demoEnvV1 : TransactionEnvelope := ⟨demoTxV1, demoPassphrase, []⟩

/-- The XDR v0 transaction record for `demoTxV0`. -/
def demoXdrTxV0 : XdrTransactionV0 := ⟨7, 100, 100, none, .none, [⟨none, 1, ⟨9, none⟩, 105000000⟩], 0⟩

/-- The XDR v1 transaction record for `demoTxV1`. -/
def demoXdrTxV1 : XdrTransaction := ⟨⟨7, none⟩, 100, 100, none, .none, [⟨none, 1, ⟨9, none⟩, 105000000⟩], 0⟩

/-- A well-formed XDR envelope with the `ENVELOPE_TYPE_TX_V0` discriminant. -/
def demoXdrEnvV0 : XdrTransactionEnvelope := ⟨ENVELOPE_TYPE_TX_V0, some ⟨demoXdrTxV0, []⟩, none⟩

/-- A well-formed XDR envelope with the `ENVELOPE_TYPE_TX` discriminant. -/
def demoXdrEnvV1 : XdrTransactionEnvelope := ⟨ENVELOPE_TYPE_TX, none, some ⟨demoXdrTxV1, []⟩⟩

theorem except_bind_ok {ε α β : Type} (a : α) (f : α → Except ε β) :
    (Except.ok a >>= f) = f a := rfl

theorem except_bind_error {ε α β : Type} (e : ε) (f : α → Except ε β) :
    ((Except.error e : Except ε α) >>= f) = .error e := rfl

theorem except_bind_pure {ε α β : Type} (a : α) (f : α → Except ε β) :
    ((pure a : Except ε α) >>= f) = f a := rfl

/-- `Transaction.to_xdr_object` never succeeds on a v1 transaction: the
v1 branch evaluates the unbound name `source_account`. -/
theorem to_xdr_object_v1_fails {t : Transaction} (h : t.v1 = true) :
    ¬ ∃ x, Transaction.to_xdr_object t = .ok x := by
  rintro ⟨x, hx⟩
  unfold Transaction.to_xdr_object at hx
  cases hm : t.operations.mapM Operation.to_xdr_object with
  | error e =>
    rw [hm] at hx
    simp [except_bind_error] at hx
  | ok ops =>
    rw [hm] at hx
    rw [except_bind_ok] at hx
    simp only [h, if_true] at hx
    cases hx

/-- `Transaction.from_xdr_object` fails on every input: the source
override at transaction.py lines 130-135 reads an attribute chain no
XDR transaction shape provides. -/
theorem from_xdr_object_fails (obj : XdrDyn) (b : Bool) :
    ¬ ∃ t, Transaction.from_xdr_object obj b = .ok t := by
  rintro ⟨t, ht⟩
  unfold Transaction.from_xdr_object at ht
  cases b with
  | false =>
    cases obj <;> simp [except_bind_ok, except_bind_error] at ht
  | true =>
    cases obj <;> simp [except_bind_ok, except_bind_error] at ht

/-! ## Claim C1: signature base -/

/-- C1: the spec says `signature_base` returns the network id followed by
the `ENVELOPE_TYPE_TX` tag and the v1-encoded transaction.  In this code
the function never returns bytes at all: on a v1 transaction the encoder
reads the unbound local `source_account` (a NameError), and on a v0
transaction the upgrade path rebuilds the source through an attribute
chain no XDR object provides (an AttributeError).  Witnessed on concrete
v1 and v0 envelopes, and proved impossible to succeed for every envelope. -/
theorem signature_base_always_raises :
    (TransactionEnvelope.signature_base demoEnvV1).1 = .error .nameError ∧
    (TransactionEnvelope.signature_base demoEnvV0).1 = .error .attributeError ∧
    ∀ env : TransactionEnvelope, ¬ ∃ bs, (TransactionEnvelope.signature_base env).1 = .ok bs := by
  refine ⟨rfl, rfl, ?_⟩
  rintro env ⟨bs, hbs⟩
  have h1 : ∃ e, signatureBaseRes env = .error e := by
    unfold signatureBaseRes
    by_cases hv : env.transaction.v1 = false
    · rw [if_pos hv]
      cases hx : Transaction.to_xdr_object env.transaction with
      | error e => exact ⟨e, by simp only [hx, except_bind_error]⟩
      | ok x =>
        cases hf : Transaction.from_xdr_object x.toDyn false with
        | error e =>
          exact ⟨e, by simp only [hx, except_bind_ok, hf, except_bind_error]⟩
        | ok t0 => exact absurd ⟨t0, hf⟩ (from_xdr_object_fails x.toDyn false)
    · rw [if_neg hv]
      have hv2 : env.transaction.v1 = true := by
        revert hv; cases env.transaction.v1 <;> simp
      cases hx : Transaction.to_xdr_object env.transaction with
      | error e => exact ⟨e, by simp only [except_bind_pure, hx, except_bind_error]⟩
      | ok x => exact absurd ⟨x, hx⟩ (to_xdr_object_v1_fails hv2)
  obtain ⟨e, he⟩ := h1
  rw [show (TransactionEnvelope.signature_base env).1 = signatureBaseRes env from rfl,
    he] at hbs
  cases hbs

/-! ## Claim C2: envelope XDR round trip -/

/-- C2: the spec says `to_xdr` then `from_xdr` restores an equal envelope.
In this code a v1 envelope cannot be serialised at all (the encoder hits
the unbound `source_account`), and although a v0 envelope does serialise,
decoding fails: `from_xdr_object` hands the whole envelope struct to
`Transaction.from_xdr_object`, whose source-rebuild attribute chain then
raises, so no envelope survives the round trip. -/
theorem envelope_xdr_roundtrip_broken :
    TransactionEnvelope.to_xdr demoEnvV1 = .error .nameError ∧
    (TransactionEnvelope.to_xdr demoEnvV0).isOk = true ∧
    (TransactionEnvelope.to_xdr_object demoEnvV0).bind
        (fun xo => TransactionEnvelope.from_xdr_object xo demoPassphrase) =
      .error .attributeError :=
  ⟨rfl, rfl, rfl⟩

/-! ## Claim C6: signature base leaves the envelope unchanged -/

/-- C6: `signature_base` performs the v0-to-v1 upgrade on a rebuilt copy
of the transaction, so the envelope it was called on is unchanged: the
returned state equals the input envelope and the stored transaction keeps
its v1 flag. -/
theorem signature_base_no_mutation (env : TransactionEnvelope)
    (h : env.transaction.v1 = false) :
    (TransactionEnvelope.signature_base env).2 = env ∧
    (TransactionEnvelope.signature_base env).2.transaction.v1 = false :=
  ⟨rfl, h⟩

theorem signature_base_no_mutation_witness :
    (TransactionEnvelope.signature_base demoEnvV0).2 = demoEnvV0 ∧
    (TransactionEnvelope.signature_base demoEnvV0).2.transaction.v1 = false :=
  signature_base_no_mutation demoEnvV0 rfl

/-! ## Claim C7: envelope decode dispatch -/

/-- C7: the dispatch itself matches the claim — an unrecognized
discriminant raises `ValueError`, proved for every such envelope — but
the recognized arms do not decode: lines 104 and 107 of
transaction_envelope.py pass the envelope record itself, not its inner
transaction, to `Transaction.from_xdr_object`, so both well-formed
discriminants raise `AttributeError` (witnessed concretely) and no call
ever returns an envelope. -/
theorem from_xdr_object_dispatch_broken :
    (∀ (te : XdrTransactionEnvelope) (p : String),
      te.type ≠ ENVELOPE_TYPE_TX_V0 → te.type ≠ ENVELOPE_TYPE_TX →
      TransactionEnvelope.from_xdr_object te p = .error .valueError) ∧
    TransactionEnvelope.from_xdr_object demoXdrEnvV0 demoPassphrase = .error .attributeError ∧
    TransactionEnvelope.from_xdr_object demoXdrEnvV1 demoPassphrase = .error .attributeError ∧
    ∀ (te : XdrTransactionEnvelope) (p : String),
      ¬ ∃ env, TransactionEnvelope.from_xdr_object te p = .ok env := by
  refine ⟨?_, rfl, rfl, ?_⟩
  · intro te p h0 h1
    unfold TransactionEnvelope.from_xdr_object
    rw [if_neg h0, if_neg h1]
  · rintro te p ⟨env, henv⟩
    unfold TransactionEnvelope.from_xdr_object at henv
    by_cases h0 : te.type = ENVELOPE_TYPE_TX_V0
    · rw [if_pos h0] at henv
      cases hv : te.v0 with
      | none => simp only [hv, except_bind_error] at henv; exact Except.noConfusion henv
      | some v =>
        cases hf : Transaction.from_xdr_object (.envV0 v) false with
        | error e =>
          simp only [hv, except_bind_ok, hf, except_bind_error] at henv
          exact Except.noConfusion henv
        | ok t0 => exact absurd ⟨t0, hf⟩ (from_xdr_object_fails (.envV0 v) false)
    · rw [if_neg h0] at henv
      by_cases h1 : te.type = ENVELOPE_TYPE_TX
      · rw [if_pos h1] at henv
        cases hv : te.v1 with
        | none => simp only [hv, except_bind_error] at henv; exact Except.noConfusion henv
        | some v =>
          cases hf : Transaction.from_xdr_object (.envV1 v) true with
          | error e =>
            simp only [hv, except_bind_ok, hf, except_bind_error] at henv
            exact Except.noConfusion henv
          | ok t0 => exact absurd ⟨t0, hf⟩ (from_xdr_object_fails (.envV1 v) true)
      · rw [if_neg h1] at henv
        cases henv

/-! ## Claim C9: transaction equality ignores the version flag -/

/-- C9: `Transaction.__eq__` never consults the `v1` flag — flipping it
on either side leaves the comparison unchanged, so the v0 and v1
transactions sharing all other fields compare equal — and the comparison
returns `True` exactly when source, sequence, fee, operations (by the
program's own operation comparison), memo and time bounds all agree. -/
theorem transaction_eq_ignores_version :
    (∀ (t1 t2 : Transaction) (b1 b2 : Bool),
      txEq { t1 with v1 := b1 } { t2 with v1 := b2 } = txEq t1 t2) ∧
    txEq demoTxV0 demoTxV1 = .ok true ∧
    ∀ t1 t2 : Transaction,
      txEq t1 t2 = .ok true ↔
        t1.source = t2.source ∧ t1.sequence = t2.sequence ∧ t1.fee = t2.fee ∧
          opListEq t1.operations t2.operations = .ok true ∧
          t1.memo = t2.memo ∧ t1.time_bounds = t2.time_bounds := by
  refine ⟨fun t1 t2 b1 b2 => rfl, rfl, ?_⟩
  intro t1 t2
  unfold txEq
  by_cases h1 : t1.source = t2.source
  case neg => rw [if_neg h1]; simp [h1]
  case pos =>
  rw [if_pos h1]
  by_cases h2 : t1.sequence = t2.sequence
  case neg => rw [if_neg h2]; simp [h2]
  case pos =>
  rw [if_pos h2]
  by_cases h3 : t1.fee = t2.fee
  case neg => rw [if_neg h3]; simp [h3]
  case pos =>
  rw [if_pos h3]
  cases hol : opListEq t1.operations t2.operations with
  | error e => simp [hol, except_bind_error, h1, h2, h3]
  | ok b =>
    rw [except_bind_ok]
    cases b with
    | false => simp [hol, h1, h2, h3, pure, Except.pure]
    | true => simp [hol, h1, h2, h3, pure, Except.pure]

/-! ## Claims C8 and C10: the memo-required destination enumeration -/

/-- Every pair the enumeration yields has a destination outside the
seen-set it started from. -/
theorem mrGo_snd_not_seen :
    ∀ (ops : List Operation) (i : Nat) (seen : List Nat) (p : Nat × Nat),
    p ∈ mrGo i seen ops → p.2 ∉ seen := by
  intro ops
  induction ops with
  | nil => intro i seen p h; simp [mrGo] at h
  | cons op rest ih =>
    intro i seen p h
    unfold mrGo at h
    by_cases hc : op.typeCode ∈ memoRequiredCodes
    · rw [if_pos hc] at h
      by_cases hs : op.destination.account_id ∈ seen
      · rw [if_pos hs] at h; exact ih _ _ _ h
      · rw [if_neg hs] at h
        rcases List.mem_cons.mp h with h | h
        · subst h; exact hs
        · have h2 := ih _ _ _ h
          exact fun hm => h2 (List.mem_cons_of_mem _ hm)
    · rw [if_neg hc] at h; exact ih _ _ _ h

/-- The destinations the enumeration yields are pairwise distinct. -/
theorem mrGo_snd_nodup :
    ∀ (ops : List Operation) (i : Nat) (seen : List Nat),
    ((mrGo i seen ops).map Prod.snd).Nodup := by
  intro ops
  induction ops with
  | nil => intro i seen; simp [mrGo]
  | cons op rest ih =>
    intro i seen
    unfold mrGo
    by_cases hc : op.typeCode ∈ memoRequiredCodes
    · rw [if_pos hc]
      by_cases hs : op.destination.account_id ∈ seen
      · rw [if_pos hs]; exact ih _ _
      · rw [if_neg hs]
        simp only [List.map_cons]
        refine List.nodup_cons.mpr ⟨?_, ih _ _⟩
        intro hmem
        obtain ⟨p, hp, hp2⟩ := List.mem_map.mp hmem
        have h2 := mrGo_snd_not_seen _ _ _ _ hp
        rw [hp2] at h2
        exact h2 (List.mem_cons_self _ _)
    · rw [if_neg hc]; exact ih _ _

/-- A yielded pair came from an operation of a memo-required kind, and
no earlier memo-required operation carries the same destination. -/
theorem mrGo_first :
    ∀ (ops : List Operation) (i : Nat) (seen : List Nat) (k d : Nat),
    (k, d) ∈ mrGo i seen ops →
    ∃ j, ∃ hj : j < ops.length, k = i + j ∧
      (ops.get ⟨j, hj⟩).typeCode ∈ memoRequiredCodes ∧
      (ops.get ⟨j, hj⟩).destination.account_id = d ∧
      ∀ j2 (hj2 : j2 < ops.length), j2 < j →
        (ops.get ⟨j2, hj2⟩).typeCode ∈ memoRequiredCodes →
        (ops.get ⟨j2, hj2⟩).destination.account_id ≠ d := by
  intro ops
  induction ops with
  | nil => intro i seen k d h; simp [mrGo] at h
  | cons op rest ih =>
    intro i seen k d h
    have hfresh : d ∉ seen := mrGo_snd_not_seen _ _ _ (k, d) h
    unfold mrGo at h
    by_cases hc : op.typeCode ∈ memoRequiredCodes
    · rw [if_pos hc] at h
      by_cases hs : op.destination.account_id ∈ seen
      · rw [if_pos hs] at h
        obtain ⟨j, hj, hk, h1, h2, h3⟩ := ih _ _ _ _ h
        refine ⟨j + 1, Nat.succ_lt_succ hj, by omega, h1, h2, ?_⟩
        intro j2 hj2 hlt hcode hdst
        cases j2 with
        | zero =>
          have hd0 : op.destination.account_id = d := hdst
          exact hfresh (hd0 ▸ hs)
        | succ m =>
          exact h3 m (Nat.lt_of_succ_lt_succ hj2) (Nat.lt_of_succ_lt_succ hlt) hcode hdst
      · rw [if_neg hs] at h
        rcases List.mem_cons.mp h with h | h
        · have hk : k = i := congrArg Prod.fst h
          have hd : d = op.destination.account_id := congrArg Prod.snd h
          refine ⟨0, Nat.succ_pos _, by omega, hc, hd.symm, ?_⟩
          intro j2 hj2 hlt
          exact absurd hlt (Nat.not_lt_zero j2)
        · have hfresh2 : d ∉ op.destination.account_id :: seen :=
            mrGo_snd_not_seen _ _ _ (k, d) h
          obtain ⟨j, hj, hk, h1, h2, h3⟩ := ih _ _ _ _ h
          refine ⟨j + 1, Nat.succ_lt_succ hj, by omega, h1, h2, ?_⟩
          intro j2 hj2 hlt hcode hdst
          cases j2 with
          | zero =>
            have hd0 : op.destination.account_id = d := hdst
            exact hfresh2 (by rw [hd0]; exact List.mem_cons_self _ _)
          | succ m =>
            exact h3 m (Nat.lt_of_succ_lt_succ hj2) (Nat.lt_of_succ_lt_succ hlt) hcode hdst
    · rw [if_neg hc] at h
      obtain ⟨j, hj, hk, h1, h2, h3⟩ := ih _ _ _ _ h
      refine ⟨j + 1, Nat.succ_lt_succ hj, by omega, h1, h2, ?_⟩
      intro j2 hj2 hlt hcode hdst
      cases j2 with
      | zero => exact absurd hcode hc
      | succ m =>
        exact h3 m (Nat.lt_of_succ_lt_succ hj2) (Nat.lt_of_succ_lt_succ hlt) hcode hdst

/-- A memo-required operation whose destination escapes the seen-set
makes the enumeration yield that destination. -/
theorem mrGo_complete :
    ∀ (ops : List Operation) (i : Nat) (seen : List Nat) (d : Nat),
    d ∉ seen →
    (∃ op, op ∈ ops ∧ op.typeCode ∈ memoRequiredCodes ∧ op.destination.account_id = d) →
    ∃ k, (k, d) ∈ mrGo i seen ops := by
  intro ops
  induction ops with
  | nil => rintro i seen d hd ⟨op, h, -, -⟩; simp at h
  | cons op rest ih =>
    rintro i seen d hd ⟨op2, hmem, hcode, hdst⟩
    unfold mrGo
    by_cases hc : op.typeCode ∈ memoRequiredCodes
    · rw [if_pos hc]
      by_cases hs : op.destination.account_id ∈ seen
      · rw [if_pos hs]
        rcases List.mem_cons.mp hmem with h | h
        · subst h; exact absurd (hdst ▸ hs) hd
        · exact ih _ _ _ hd ⟨op2, h, hcode, hdst⟩
      · rw [if_neg hs]
        by_cases hdd : op.destination.account_id = d
        · exact ⟨i, by rw [← hdd]; exact List.mem_cons_self _ _⟩
        · rcases List.mem_cons.mp hmem with h | h
          · subst h; exact absurd hdst hdd
          · have hd2 : d ∉ op.destination.account_id :: seen := by
              intro hm
              rcases List.mem_cons.mp hm with hm | hm
              · exact hdd hm.symm
              · exact hd hm
            obtain ⟨k, hk⟩ := ih _ _ _ hd2 ⟨op2, h, hcode, hdst⟩
            exact ⟨k, List.mem_cons_of_mem _ hk⟩
    · rw [if_neg hc]
      rcases List.mem_cons.mp hmem with h | h
      · subst h; exact absurd hcode hc
      · exact ih _ _ _ hd ⟨op2, h, hcode, hdst⟩

/-- C8: a destination account id appears in the memo-required check
enumeration exactly when some operation of the transaction has it as
destination and carries one of the four memo-required type codes —
`PAYMENT` (1), `ACCOUNT_MERGE` (8), `PATH_PAYMENT_STRICT_RECEIVE` (2)
or `PATH_PAYMENT_STRICT_SEND` (13); every other operation kind
contributes nothing. -/
theorem memo_required_destinations_exact :
    ∀ (tx : Transaction) (d : Nat),
      (∃ i, (i, d) ∈ memoRequiredDestinations tx) ↔
        ∃ op, op ∈ tx.operations ∧
          (op.typeCode = 1 ∨ op.typeCode = 8 ∨ op.typeCode = 2 ∨ op.typeCode = 13) ∧
          op.destination.account_id = d := by
  intro tx d
  have hcodes : ∀ op : Operation, op.typeCode ∈ memoRequiredCodes ↔
      (op.typeCode = 1 ∨ op.typeCode = 8 ∨ op.typeCode = 2 ∨ op.typeCode = 13) := by
    intro op; simp [memoRequiredCodes]
  constructor
  · rintro ⟨i, hi⟩
    obtain ⟨j, hj, -, h1, h2, -⟩ := mrGo_first _ _ _ _ _ hi
    exact ⟨tx.operations.get ⟨j, hj⟩, List.get_mem _ _ _, (hcodes _).mp h1, h2⟩
  · rintro ⟨op, hmem, hcode, hdst⟩
    exact mrGo_complete _ 0 [] d (List.not_mem_nil d) ⟨op, hmem, (hcodes op).mpr hcode, hdst⟩

/-- C10: the enumeration never yields the same destination twice, and
each yielded pair carries the index of the first memo-required operation
referencing that destination: the indexed operation is memo-required
with that destination, and every earlier memo-required operation has a
different one. -/
theorem memo_required_destinations_dedup :
    ∀ tx : Transaction,
      ((memoRequiredDestinations tx).map Prod.snd).Nodup ∧
      ∀ k d, (k, d) ∈ memoRequiredDestinations tx →
        ∃ hk : k < tx.operations.length,
          (tx.operations.get ⟨k, hk⟩).typeCode ∈ memoRequiredCodes ∧
          (tx.operations.get ⟨k, hk⟩).destination.account_id = d ∧
          ∀ j (hj : j < tx.operations.length), j < k →
            (tx.operations.get ⟨j, hj⟩).typeCode ∈ memoRequiredCodes →
            (tx.operations.get ⟨j, hj⟩).destination.account_id ≠ d := by
  intro tx
  refine ⟨mrGo_snd_nodup _ _ _, ?_⟩
  intro k d h
  obtain ⟨j, hj, hk, h1, h2, h3⟩ := mrGo_first _ _ _ _ _ h
  have hkj : k = j := by omega
  subst hkj
  exact ⟨hj, h1, h2, h3⟩

/-! ## Claim C3: duplicate signature rejection -/

/-- Signing fails with `SignatureExist` as soon as any stored signature
shares the keypair hint. -/
theorem sign_hint_member {env : TransactionEnvelope} {kp : Keypair} (sk : Nat)
    (hsec : kp.secret = some sk)
    (hmem : ∃ s ∈ env.signatures, s.hint = kp.hint) :
    BaseTransactionEnvelope.sign env kp = .error .signatureExist := by
  unfold BaseTransactionEnvelope.sign
  simp only [hsec]
  have hany : env.signatures.any (fun s => decide (s.hint = kp.hint)) = true := by
    obtain ⟨s, hs, he⟩ := hmem
    exact List.any_eq_true.mpr ⟨s, hs, decide_eq_true he⟩
  rw [if_pos hany]

/-- Signing succeeds whenever the secret is present and no stored
signature shares the hint; the decorated signature is appended. -/
theorem sign_hint_fresh {env : TransactionEnvelope} {kp : Keypair} (sk : Nat)
    (hsec : kp.secret = some sk)
    (hfresh : ∀ s ∈ env.signatures, s.hint ≠ kp.hint) :
    BaseTransactionEnvelope.sign env kp =
      .ok { env with signatures := env.signatures ++
        [⟨kp.hint, edSign sk (be256 (sha256Model (specSignatureBase env)))⟩] } := by
  unfold BaseTransactionEnvelope.sign
  simp only [hsec]
  have hany : env.signatures.any (fun s => decide (s.hint = kp.hint)) = false := by
    rw [List.any_eq_false]
    intro s hs
    simpa using hfresh s hs
  rw [hany]
  simp

/-- C3: once a keypair has signed, signing again with the same keypair —
or with any secret-bearing keypair sharing the 4-byte hint, whatever its
key or secret — raises `SignatureExist`, while a keypair whose hint
matches no stored signature signs successfully: the duplicate check
compares hints only. -/
theorem sign_duplicate_hint_rejected :
    ∀ (env env2 : TransactionEnvelope) (kp : Keypair),
      BaseTransactionEnvelope.sign env kp = .ok env2 →
      BaseTransactionEnvelope.sign env2 kp = .error .signatureExist ∧
      (∀ kp2 : Keypair, kp2.hint = kp.hint → kp2.secret.isSome = true →
        BaseTransactionEnvelope.sign env2 kp2 = .error .signatureExist) ∧
      ∀ kp3 : Keypair, kp3.secret.isSome = true →
        (∀ s ∈ env2.signatures, s.hint ≠ kp3.hint) →
        ∃ env3, BaseTransactionEnvelope.sign env2 kp3 = .ok env3 := by
  intro env env2 kp h
  have hstruct : ∃ sk, kp.secret = some sk ∧
      env2.signatures = env.signatures ++
        [⟨kp.hint, edSign sk (be256 (sha256Model (specSignatureBase env)))⟩] := by
    unfold BaseTransactionEnvelope.sign at h
    cases hsec : kp.secret with
    | none => rw [hsec] at h; cases h
    | some sk =>
      simp only [hsec] at h
      by_cases hany : env.signatures.any (fun s => decide (s.hint = kp.hint)) = true
      · rw [if_pos hany] at h; cases h
      · rw [if_neg hany] at h
        injection h with h
        exact ⟨sk, rfl, by rw [← h]⟩
  obtain ⟨sk, hsec, hsigs⟩ := hstruct
  have hlast : (⟨kp.hint, edSign sk (be256 (sha256Model (specSignatureBase env)))⟩ :
      DecoratedSignature) ∈ env2.signatures := by
    rw [hsigs]
    exact List.mem_append_right _ (List.mem_singleton.mpr rfl)
  refine ⟨?_, ?_, ?_⟩
  · exact sign_hint_member sk hsec ⟨_, hlast, rfl⟩
  · intro kp2 hhint hsome
    obtain ⟨sk2, hsk2⟩ := Option.isSome_iff_exists.mp hsome
    exact sign_hint_member sk2 hsk2 ⟨_, hlast, hhint.symm⟩
  · intro kp3 hsome hfresh
    obtain ⟨sk3, hsk3⟩ := Option.isSome_iff_exists.mp hsome
    exact ⟨_, sign_hint_fresh sk3 hsk3 hfresh⟩

theorem sign_duplicate_hint_rejected_witness :
    (BaseTransactionEnvelope.sign demoEnvV0 ⟨5, some 11⟩).bind
      (fun e => BaseTransactionEnvelope.sign e ⟨5 + 2 ^ 32, some 12⟩) =
      .error .signatureExist := by
  obtain ⟨e2, he⟩ : ∃ e2, BaseTransactionEnvelope.sign demoEnvV0 ⟨5, some 11⟩ = .ok e2 :=
    ⟨_, rfl⟩
  rw [he]
  exact (sign_duplicate_hint_rejected demoEnvV0 e2 ⟨5, some 11⟩ he).2.1
    ⟨5 + 2 ^ 32, some 12⟩ rfl rfl

end StellarSDK